import Mathlib

/-!
Verification of the knights-travails repository (`src/graph.js`, `src/index.js`).

The board graph, the BFS and DFS knight-move searches and the path
reconstruction of `src/graph.js` are embedded shallowly below.  A vertex is
identified by its integer coordinate pair `(row, column)` (JS `GraphVertex`
objects are unique per coordinate on the board, and all comparisons in the
source are coordinate comparisons, so coordinates are a faithful identity).
The shared mutable `previous` field of the vertices is modelled as an explicit
association list threaded through the searches: an assignment
`adjacent.previous = vertex` becomes a prepend, and a lookup takes the most
recent binding, so overwriting is modelled exactly.
-/

/-- A vertex of the chess-board graph, identified by `(row, column)`.
JS numbers holding small integers are embedded as `Int`. -/
abbrev V := Int × Int

/-- `this.boardSize = 8` in the `Graph` constructor. -/
def boardSize : Int := 8

/-- The eight candidate knight-move targets of `#findAdjacents`,
in the exact order of the `movePatterns` array in the source. -/
def movePatterns (v : V) : List V :=
  [(v.1 - 2, v.2 + 1), (v.1 - 1, v.2 + 2), (v.1 + 1, v.2 + 2), (v.1 + 2, v.2 + 1),
   (v.1 + 2, v.2 - 1), (v.1 + 1, v.2 - 2), (v.1 - 1, v.2 - 2), (v.1 - 2, v.2 - 1)]

/-- The bounds filter of `#findAdjacents`:
`row >= 0 && row < boardSize && column >= 0 && column < boardSize`. -/
def onBoard (p : V) : Bool :=
  decide (0 ≤ p.1) && decide (p.1 < boardSize) && decide (0 ≤ p.2) && decide (p.2 < boardSize)

/-- `#findAdjacents(vertex)`: the move patterns filtered to the board.
(The JS method returns the corresponding `this.board[row][column]` vertex
objects; as coordinate values that is exactly the filtered list.) -/
def findAdjacents (v : V) : List V := (movePatterns v).filter onBoard

/-- `#isVertexInArray(vertex, array)`: coordinate-wise membership scan. -/
def isVertexInArray (v : V) (a : List V) : Bool :=
  a.any (fun e => v.1 == e.1 && v.2 == e.2)

/-- The `previous` fields of all vertices, as an association list from a
vertex to the vertex stored in its `previous` field.  Newer assignments are
prepended, and `lookupPrev` takes the first binding, so later assignments
shadow earlier ones exactly as mutation does. -/
abbrev Prev := List (V × V)

/-- Reading `vertex.previous` (`none` models `null` / never assigned). -/
def lookupPrev (m : Prev) (v : V) : Option V :=
  (m.find? (fun p => p.1 == v)).map (·.2)

/-- The loop of `#reconstructPath(vertex, initialVertex)`: walk `previous`
links from `vertex`, pushing coordinates, until `initialVertex` is reached,
then push the initial vertex and reverse.  The JS `while` loop is unbounded;
`fuel` bounds it here, and `none` models divergence or a null dereference,
which the theorems below show never happens in a real run. -/
def reconstructPath (m : Prev) : Nat → V → V → List V → Option (List V)
  | 0, _, _, _ => none
  | fuel + 1, vertex, initial, path =>
    if vertex == initial then some ((path ++ [initial]).reverse)
    else
      match lookupPrev m vertex with
      | none => none
      | some p => reconstructPath m fuel p initial (path ++ [vertex])

/-- `#reconstructPath(vertex, initialVertex)` with fuel large enough for any
chain a search can build (at most 65 distinct vertices). -/
def reconstructPathRun (m : Prev) (vertex initial : V) : Option (List V) :=
  reconstructPath m 100 vertex initial []

/-- The `forEach` over `adjacents` shared by both searches: each adjacent
that is in neither the live frontier nor the explored list gets its
`previous` field set to the current vertex and is pushed onto the frontier. -/
def processAdjacents (vertex : V) (adjs : List V) (frontier : List V)
    (explored : List V) (prev : Prev) : List V × Prev :=
  adjs.foldl
    (fun st adjacent =>
      if !isVertexInArray adjacent st.1 && !isVertexInArray adjacent explored then
        (st.1 ++ [adjacent], (adjacent, vertex) :: st.2)
      else st)
    (frontier, prev)

/-- One result of a search: `none` models the JS `null` return,
`some path` a returned coordinate path. -/
abbrev SearchResult := Option (List V)

/-- The `while (queue.length > 0)` loop of `knightMovesBFS`.  `fuel` bounds
the number of iterations; the outer `none` models running out of fuel and
never occurs with the fuel the wrappers pass (the termination theorems below
make that precise). -/
def bfsLoop (endV initial : V) : Nat → List V → List V → Prev → Option SearchResult
  | 0, _, _, _ => none
  | fuel + 1, queue, explored, prev =>
    match queue with
    | [] => some none
    | vertex :: rest =>
      let explored2 := explored ++ [vertex]
      if vertex.1 == endV.1 && vertex.2 == endV.2 then
        match reconstructPathRun prev vertex initial with
        | none => none
        | some p => some (some p)
      else
        let st := processAdjacents vertex (findAdjacents vertex) rest explored2 prev
        bfsLoop endV initial fuel st.1 explored2 st.2

/-- `knightMovesBFS(initialVertex, endVertex)` run on a graph whose vertices
currently hold the `previous` assignments `prev` (a fresh graph has
`prev = []`).  Fuel 1000 is far above the 65 iterations any run can take. -/
def knightMovesBFS (initial endV : V) (prev : Prev) : Option SearchResult :=
  bfsLoop endV initial 1000 [initial] [] prev

/-- The `forEach` over `adjacents` in `knightMovesDFS`.  The JS array is a
stack here (`pop` removes the most recently pushed element), so it is
modelled with its top FIRST: a push prepends, and the pop in `dfsLoop`
takes the head.  Membership tests see the same set of elements. -/
def processAdjacentsStack (vertex : V) (adjs : List V) (stack : List V)
    (explored : List V) (prev : Prev) : List V × Prev :=
  adjs.foldl
    (fun st adjacent =>
      if !isVertexInArray adjacent st.1 && !isVertexInArray adjacent explored then
        (adjacent :: st.1, (adjacent, vertex) :: st.2)
      else st)
    (stack, prev)

/-- The `while (stack.length > 0)` loop of `knightMovesDFS`.  The JS
`stack.pop()` removes the last-pushed element; with the stack stored
top-first this is the head. -/
def dfsLoop (endV initial : V) : Nat → List V → List V → Prev → Option SearchResult
  | 0, _, _, _ => none
  | fuel + 1, stack, explored, prev =>
    match stack with
    | [] => some none
    | vertex :: rest =>
      let explored2 := explored ++ [vertex]
      if vertex.1 == endV.1 && vertex.2 == endV.2 then
        match reconstructPathRun prev vertex initial with
        | none => none
        | some p => some (some p)
      else
        let st := processAdjacentsStack vertex (findAdjacents vertex) rest explored2 prev
        dfsLoop endV initial fuel st.1 explored2 st.2

/-- `knightMovesDFS(initialVertex, endVertex)` on a graph whose vertices hold
the `previous` assignments `prev`. -/
def knightMovesDFS (initial endV : V) (prev : Prev) : Option SearchResult :=
  dfsLoop endV initial 1000 [initial] [] prev

/-- The 64 board squares in the creation order of `#createVertices`
(row-major). -/
def allSquares : List V :=
  (List.range 64).map (fun i => (Int.ofNat (i / 8), Int.ofNat (i % 8)))

/-! ### Graph construction (`edges` lists)

The constructor builds the 64 vertices and then calls `#connectAllAdjacents`,
which links every square to its knight-move neighbours, skipping a link when
`#edgeExists` already finds one.  The `edges` arrays of the vertices are
modelled as an association list with one entry per square, in creation
order; `push` appends at the end of a square's list. -/

/-- The `edges` arrays of all vertices: one entry per square. -/
abbrev Edges := List (V × List V)

/-- The board right after `#createVertices`: every square, empty edge list. -/
def initEdges : Edges := allSquares.map (fun v => (v, []))

/-- Reading `vertex.edges` (a vertex that was never created reads `[]`). -/
def lookupEdges (e : Edges) (v : V) : List V :=
  ((e.find? (fun p => p.1 == v)).map (·.2)).getD []

/-- `vertex.edges.push(w)` for the vertex `v`. -/
def pushEdge (e : Edges) (v w : V) : Edges :=
  e.map (fun p => if p.1 == v then (p.1, p.2 ++ [w]) else p)

/-- `#createEdge(vertex1, vertex2)`: `vertex1.edges.push(vertex2)` then
`vertex2.edges.push(vertex1)`. -/
def createEdge (e : Edges) (v1 v2 : V) : Edges :=
  pushEdge (pushEdge e v1 v2) v2 v1

/-- `#edgeExists(vertex1, vertex2)`: scan `vertex2.edges` for `vertex1`'s
coordinates. -/
def edgeExists (e : Edges) (v1 v2 : V) : Bool :=
  (lookupEdges e v2).any (fun cv => cv.1 == v1.1 && cv.2 == v1.2)

/-- `#connectAdjacents(vertex)`: link `v` to each of its knight-move
neighbours unless the edge already exists. -/
def connectAdjacents (e : Edges) (v : V) : Edges :=
  (findAdjacents v).foldl
    (fun e adjacent => if edgeExists e v adjacent then e else createEdge e v adjacent) e

/-- `#connectAllAdjacents()`: process every square in row-major order. -/
def boardEdges : Edges := allSquares.foldl connectAdjacents initEdges

/-- The final `edges` list of the square `v` after graph construction. -/
def edgesOf (v : V) : List V := lookupEdges boardEdges v

/-! ### Reference notions from the specification

The knight-move relation, graph distance (via an independent breadth-first
closure) and validity of a coordinate path, written from the words of the
spec (glossary: "an L-shaped displacement of (±1,±2) or (±2,±1)"; §8: the
independent reference distance). -/

/-- The knight-move relation: the displacement is `(±1,±2)` or `(±2,±1)`. -/
def isKnightMove (a b : V) : Bool :=
  ((a.1 - b.1).natAbs == 1 && (a.2 - b.2).natAbs == 2) ||
  ((a.1 - b.1).natAbs == 2 && (a.2 - b.2).natAbs == 1)

/-- Squares at graph distance at most `n` from `s` in the knight-move graph
on the board: the independent reference breadth-first closure. -/
def reachSet (s : V) : Nat → List V
  | 0 => [s]
  | n + 1 =>
    let r := reachSet s n
    r ++ allSquares.filter (fun x => r.any (fun y => isKnightMove y x))

/-- Least `i ≤ j < i + fuel` satisfying `P`, else `i + fuel`. -/
def least (P : Nat → Bool) : Nat → Nat → Nat
  | 0, i => i
  | fuel + 1, i => if P i then i else least P fuel (i + 1)

/-- The graph distance from `s` to `g` in the knight-move graph: the least
`n` with `g ∈ reachSet s n` (all board pairs have distance at most 63, so
the scan bound 64 is never reached on the board). -/
def graphDist (s g : V) : Nat := least (fun n => decide (g ∈ reachSet s n)) 64 0

/-- Consecutive coordinates are knight moves (spec §3: "each consecutive
pair in it is adjacent under the knight-move relation"). -/
def knightChain (p : List V) : Prop := List.Chain' (fun a b => isKnightMove a b = true) p

/-- A valid knight path from `s` to `g`: begins at `s`, ends at `g`, each
consecutive pair a knight move. -/
def validPath (s g : V) (p : List V) : Prop :=
  p.head? = some s ∧ p.getLast? = some g ∧ knightChain p

/-- A path through the board graph also stays on the board. -/
def onBoardPath (p : List V) : Prop := ∀ x ∈ p, onBoard x = true

/-! ### Basic lemmas -/

theorem pair_beq_iff (v e : V) : (v.1 == e.1 && v.2 == e.2) = true ↔ v = e := by
  rcases v with ⟨a, b⟩; rcases e with ⟨c, d⟩
  simp [Prod.ext_iff]

theorem isVertexInArray_iff (v : V) (l : List V) :
    isVertexInArray v l = true ↔ v ∈ l := by
  simp only [isVertexInArray, List.any_eq_true]
  constructor
  · rintro ⟨e, he, h⟩; rwa [(pair_beq_iff v e).mp h]
  · intro h; exact ⟨v, h, by simp⟩

theorem isVertexInArray_false_iff (v : V) (l : List V) :
    isVertexInArray v l = false ↔ v ∉ l := by
  rw [← Bool.not_eq_true, not_iff_not]; exact isVertexInArray_iff v l

theorem isKnightMove_symm (a b : V) : isKnightMove a b = isKnightMove b a := by
  rcases a with ⟨a1, a2⟩; rcases b with ⟨b1, b2⟩
  simp only [isKnightMove]
  have h1 : (a1 - b1).natAbs = (b1 - a1).natAbs := by omega
  have h2 : (a2 - b2).natAbs = (b2 - a2).natAbs := by omega
  rw [h1, h2]

theorem isKnightMove_irrefl (a : V) : isKnightMove a a = false := by
  rcases a with ⟨a1, a2⟩; simp [isKnightMove]

set_option maxHeartbeats 1000000 in
theorem mem_findAdjacents {b : V} (a : V) :
    b ∈ findAdjacents a ↔ (isKnightMove a b = true ∧ onBoard b = true) := by
  rcases a with ⟨r, c⟩; rcases b with ⟨x, y⟩
  simp only [findAdjacents, List.mem_filter, movePatterns, List.mem_cons,
    List.not_mem_nil, or_false, Prod.mk.injEq, isKnightMove, Bool.or_eq_true,
    Bool.and_eq_true, beq_iff_eq]
  constructor
  · rintro ⟨h, hb⟩
    exact ⟨by omega, hb⟩
  · rintro ⟨hk, hb⟩
    exact ⟨by omega, hb⟩

theorem findAdjacents_onBoard {a b : V} (h : b ∈ findAdjacents a) : onBoard b = true :=
  ((mem_findAdjacents a).mp h).2

theorem findAdjacents_not_self (a : V) : a ∉ findAdjacents a := by
  intro h
  have := ((mem_findAdjacents a).mp h).1
  rw [isKnightMove_irrefl] at this
  exact Bool.false_ne_true this

theorem onBoard_iff (p : V) :
    onBoard p = true ↔ (0 ≤ p.1 ∧ p.1 < 8 ∧ 0 ≤ p.2 ∧ p.2 < 8) := by
  simp [onBoard, boardSize, and_assoc]

theorem mem_allSquares (v : V) : v ∈ allSquares ↔ onBoard v = true := by
  rw [onBoard_iff]
  constructor
  · intro h
    obtain ⟨i, hi, he⟩ := List.mem_map.mp h
    rw [List.mem_range] at hi
    rw [Prod.ext_iff] at he
    obtain ⟨h1, h2⟩ := he
    simp only [Int.ofNat_eq_coe] at h1 h2
    omega
  · intro h
    refine List.mem_map.mpr ⟨v.1.toNat * 8 + v.2.toNat, List.mem_range.mpr (by omega), ?_⟩
    rw [Prod.ext_iff]
    simp only [Int.ofNat_eq_coe]
    omega

theorem allSquares_nodup : allSquares.Nodup := by decide

theorem allSquares_length : allSquares.length = 64 := by decide

/-! ### Distance theory for the reference knight-move graph -/

theorem reachSet_zero (s x : V) : x ∈ reachSet s 0 ↔ x = s := by
  simp [reachSet]

theorem mem_reachSet_succ (s x : V) (n : Nat) :
    x ∈ reachSet s (n + 1) ↔
      x ∈ reachSet s n ∨
        (onBoard x = true ∧ ∃ y ∈ reachSet s n, isKnightMove y x = true) := by
  simp only [reachSet, List.mem_append, List.mem_filter, List.any_eq_true, mem_allSquares]

theorem reachSet_mono_succ (s : V) (n : Nat) : reachSet s n ⊆ reachSet s (n + 1) := by
  intro x hx; rw [mem_reachSet_succ]; exact Or.inl hx

theorem reachSet_mono (s : V) {m n : Nat} (h : m ≤ n) : reachSet s m ⊆ reachSet s n := by
  induction n with
  | zero => rw [Nat.le_zero.mp h]; exact fun x hx => hx
  | succ k ih =>
    rcases Nat.eq_or_lt_of_le h with rfl | hlt
    · exact fun x hx => hx
    · exact fun x hx => reachSet_mono_succ s k (ih (Nat.lt_succ_iff.mp hlt) hx)

theorem reachSet_onBoard {s : V} (hs : onBoard s = true) (n : Nat) :
    ∀ x ∈ reachSet s n, onBoard x = true := by
  induction n with
  | zero => intro x hx; rw [reachSet_zero] at hx; rwa [hx]
  | succ k ih =>
    intro x hx
    rcases (mem_reachSet_succ s x k).mp hx with h | ⟨h, _⟩
    · exact ih x h
    · exact h

theorem reachSet_step {s y x : V} {n : Nat} (hy : y ∈ reachSet s n)
    (hk : isKnightMove y x = true) (hx : onBoard x = true) :
    x ∈ reachSet s (n + 1) := by
  rw [mem_reachSet_succ]; exact Or.inr ⟨hx, y, hy, hk⟩

theorem least_le (P : Nat → Bool) (fuel : Nat) :
    ∀ i k, i ≤ k → P k = true → least P fuel i ≤ k := by
  induction fuel with
  | zero => intro i k h _; simpa [least] using h
  | succ f ih =>
    intro i k h hk
    by_cases hp : P i = true
    · simpa [least, hp] using h
    · have hik : i + 1 ≤ k := by
        rcases Nat.eq_or_lt_of_le h with rfl | hlt
        · exact absurd hk hp
        · omega
      simpa [least, hp] using ih (i + 1) k hik hk

theorem least_ub (P : Nat → Bool) (fuel : Nat) : ∀ i, least P fuel i ≤ i + fuel := by
  induction fuel with
  | zero => intro i; simp [least]
  | succ f ih =>
    intro i
    by_cases hp : P i = true
    · simp [least, hp]
    · have := ih (i + 1)
      simp only [least, hp]
      simp only [Bool.false_eq_true, if_false]
      omega

theorem least_spec (P : Nat → Bool) (fuel : Nat) :
    ∀ i k, i ≤ k → k < i + fuel → P k = true → P (least P fuel i) = true := by
  induction fuel with
  | zero => intro i k h1 h2 _; omega
  | succ f ih =>
    intro i k h1 h2 hk
    by_cases hp : P i = true
    · simp [least, hp]
    · have hik : i + 1 ≤ k := by
        rcases Nat.eq_or_lt_of_le h1 with rfl | hlt
        · exact absurd hk hp
        · omega
      simpa [least, hp] using ih (i + 1) k hik (by omega) hk

/-- `g` is within 63 knight moves of `s`: holds for every pair of board
squares (proved below via an explicit knight tour). -/
def reachable63 (s g : V) : Prop := ∃ n, n ≤ 63 ∧ g ∈ reachSet s n

theorem graphDist_le {s g : V} {k : Nat} (hk : g ∈ reachSet s k) : graphDist s g ≤ k := by
  rcases Nat.lt_or_ge k 64 with h | h
  · exact least_le _ 64 0 k (Nat.zero_le k) (by simpa using hk)
  · exact le_trans (by simpa using least_ub (fun n => decide (g ∈ reachSet s n)) 64 0) h

theorem graphDist_mem {s g : V} (h : reachable63 s g) :
    g ∈ reachSet s (graphDist s g) := by
  obtain ⟨n, hn, hg⟩ := h
  have := least_spec (fun n => decide (g ∈ reachSet s n)) 64 0 n (Nat.zero_le n)
    (by omega) (by simpa using hg)
  simpa [graphDist] using this

theorem graphDist_le_63 {s g : V} (h : reachable63 s g) : graphDist s g ≤ 63 := by
  obtain ⟨n, hn, hg⟩ := h
  exact le_trans (graphDist_le hg) hn

theorem graphDist_self (s : V) : graphDist s s = 0 := by
  have h : s ∈ reachSet s 0 := (reachSet_zero s s).mpr rfl
  have := graphDist_le h
  omega

theorem graphDist_not_lt {s g : V} {k : Nat} (hk : k < graphDist s g) :
    g ∉ reachSet s k := by
  intro hmem
  exact absurd (graphDist_le hmem) (by omega)

/-- Every vertex at positive distance has a predecessor one step closer. -/
theorem graphDist_pred {s g : V} {n : Nat} (hs : onBoard s = true)
    (h : reachable63 s g) (hd : graphDist s g = n + 1) :
    ∃ y, onBoard y = true ∧ graphDist s y = n ∧ g ∈ findAdjacents y := by
  have h63 : graphDist s g ≤ 63 := graphDist_le_63 h
  have hmem : g ∈ reachSet s (n + 1) := hd ▸ graphDist_mem h
  have hnot : g ∉ reachSet s n := graphDist_not_lt (by omega)
  rcases (mem_reachSet_succ s g n).mp hmem with hc | ⟨hb, y, hy, hk⟩
  · exact absurd hc hnot
  · refine ⟨y, reachSet_onBoard hs n y hy, ?_, (mem_findAdjacents y).mpr ⟨hk, hb⟩⟩
    have h1 : graphDist s y ≤ n := graphDist_le hy
    have h2 : ¬ graphDist s y + 1 < n + 1 := by
      intro hlt
      have : g ∈ reachSet s (graphDist s y + 1) :=
        reachSet_step (graphDist_mem ⟨n, by omega, hy⟩) hk hb
      exact absurd this (graphDist_not_lt (by omega))
    omega

/-- Moving along one knight edge changes the distance by at most one. -/
theorem graphDist_le_succ {s y x : V} (hy : reachable63 s y)
    (hx : x ∈ findAdjacents y) : graphDist s x ≤ graphDist s y + 1 := by
  obtain ⟨hk, hb⟩ := (mem_findAdjacents y).mp hx
  exact graphDist_le (reachSet_step (graphDist_mem hy) hk hb)

/-! ### Knight paths and connectivity of the board -/

theorem knightChain_reverse {p : List V} (h : knightChain p) : knightChain p.reverse := by
  rw [knightChain, List.chain'_reverse]
  have he : (flip fun a b : V => isKnightMove a b = true) =
      (fun a b : V => isKnightMove a b = true) := by
    funext a b
    simp only [flip]
    rw [isKnightMove_symm]
  rw [he]
  exact h

theorem validPath_reverse {s g : V} {p : List V} (h : validPath s g p) :
    validPath g s p.reverse := by
  obtain ⟨h1, h2, h3⟩ := h
  refine ⟨?_, ?_, knightChain_reverse h3⟩
  · rw [List.head?_reverse]; exact h2
  · rw [List.getLast?_reverse]; exact h1

theorem chain_reach {s : V} :
    ∀ (t : List V) (a : V) (n : Nat), a ∈ reachSet s n →
      knightChain (a :: t) → (∀ x ∈ t, onBoard x = true) →
      ∀ z, (a :: t).getLast? = some z → z ∈ reachSet s (n + t.length) := by
  intro t
  induction t with
  | nil =>
    intro a n ha _ _ z hz
    simp only [List.getLast?_singleton, Option.some.injEq] at hz
    subst hz; simpa using ha
  | cons b t' ih =>
    intro a n ha hc hb z hz
    rw [knightChain, List.chain'_cons] at hc
    have hbb : onBoard b = true := hb b (by simp)
    have hb' : b ∈ reachSet s (n + 1) := reachSet_step ha hc.1 hbb
    have hz' : (b :: t').getLast? = some z := by
      rw [← List.getLast?_cons_cons]; exact hz
    have := ih b (n + 1) hb' hc.2 (fun x hx => hb x (by simp [hx])) z hz'
    have heq : n + 1 + t'.length = n + (b :: t').length := by simp; omega
    rwa [heq] at this

theorem validPath_reach {s g : V} {p : List V}
    (hv : validPath s g p) (hb : onBoardPath p) :
    g ∈ reachSet s (p.length - 1) := by
  obtain ⟨h1, h2, h3⟩ := hv
  rcases p with _ | ⟨a, t⟩
  · simp at h1
  · have ha : a = s := by simpa using h1
    subst ha
    have := chain_reach t a 0 ((reachSet_zero a a).mpr rfl) h3
      (fun x hx => hb x (by simp [hx])) g h2
    simpa using this

theorem reach_to_path {s : V} (hs : onBoard s = true) :
    ∀ (n : Nat) (g : V), g ∈ reachSet s n →
      ∃ p, validPath s g p ∧ onBoardPath p ∧ p.length ≤ n + 1 := by
  intro n
  induction n with
  | zero =>
    intro g hg
    rw [reachSet_zero] at hg; subst hg
    exact ⟨[g], ⟨rfl, rfl, by simp [knightChain]⟩,
      fun x hx => by simp at hx; rwa [hx], by simp⟩
  | succ k ih =>
    intro g hg
    rcases (mem_reachSet_succ s g k).mp hg with h | ⟨hbg, y, hy, hk⟩
    · obtain ⟨p, hv, hb, hl⟩ := ih g h
      exact ⟨p, hv, hb, by omega⟩
    · obtain ⟨p, ⟨h1, h2, h3⟩, hb, hl⟩ := ih y hy
      refine ⟨p ++ [g], ⟨?_, ?_, ?_⟩, ?_, ?_⟩
      · rw [List.head?_append]
        rw [h1]; rfl
      · simp [List.getLast?_concat]
      · rw [knightChain, List.chain'_append]
        refine ⟨h3, by simp [knightChain], ?_⟩
        intro x hx y' hy'
        simp only [List.head?_cons, Option.mem_def, Option.some.injEq] at hy'
        subst hy'
        rw [h2] at hx
        simp only [Option.mem_def, Option.some.injEq] at hx
        subst hx
        exact hk
      · intro x hx
        rcases List.mem_append.mp hx with h | h
        · exact hb x h
        · simp only [List.mem_singleton] at h; subst h; exact hbg
      · simp only [List.length_append, List.length_singleton]; omega

/-- An explicit open knight tour visiting every board square once. -/
def knightTour : List V :=
  [(0, 0), (1, 2), (0, 4), (1, 6), (3, 7), (5, 6), (7, 7), (6, 5), (5, 7), (7, 6),
   (6, 4), (7, 2), (6, 0), (4, 1), (2, 0), (0, 1), (1, 3), (0, 5), (1, 7), (2, 5),
   (0, 6), (2, 7), (4, 6), (6, 7), (7, 5), (6, 3), (7, 1), (5, 0), (3, 1), (1, 0),
   (0, 2), (2, 1), (4, 0), (5, 2), (7, 3), (6, 1), (4, 2), (3, 0), (1, 1), (0, 3),
   (2, 2), (1, 4), (3, 3), (5, 4), (3, 5), (2, 3), (4, 4), (3, 2), (5, 1), (7, 0),
   (6, 2), (4, 3), (2, 4), (3, 6), (1, 5), (0, 7), (2, 6), (3, 4), (5, 3), (4, 5),
   (6, 6), (4, 7), (5, 5), (7, 4)]

/-- Executable form of `knightChain`. -/
def chainB : List V → Bool
  | [] => true
  | [_] => true
  | a :: b :: t => isKnightMove a b && chainB (b :: t)

theorem chainB_iff : ∀ l : List V, chainB l = true ↔ knightChain l := by
  intro l
  match l with
  | [] => simp [chainB, knightChain]
  | [a] => simp [chainB, knightChain]
  | a :: b :: t =>
    rw [knightChain, List.chain'_cons]
    rw [chainB, Bool.and_eq_true]
    have := chainB_iff (b :: t)
    rw [knightChain] at this
    rw [this]

theorem knightTour_chain : knightChain knightTour := by
  rw [← chainB_iff]; decide

theorem knightTour_board : ∀ x ∈ knightTour, onBoard x = true := by decide

theorem knightTour_length : knightTour.length = 64 := by decide

theorem knightTour_cover : ∀ x, onBoard x = true → x ∈ knightTour := by
  have h : ∀ v ∈ allSquares, v ∈ knightTour := by decide
  intro x hx
  exact h x ((mem_allSquares x).mpr hx)

/-- Along a knight chain, every member is reachable from the head within
one move per remaining element. -/
theorem chain_suffix_reach {a : V} {t : List V}
    (hc : knightChain (a :: t)) (hb : ∀ x ∈ a :: t, onBoard x = true) :
    ∀ b ∈ a :: t, ∃ n, n ≤ t.length ∧ b ∈ reachSet a n := by
  intro b hbmem
  rcases List.mem_cons.mp hbmem with rfl | hbt
  · exact ⟨0, Nat.zero_le _, (reachSet_zero b b).mpr rfl⟩
  · obtain ⟨t1, t2, rfl⟩ := List.append_of_mem hbt
    have hsplit : a :: (t1 ++ b :: t2) = (a :: (t1 ++ [b])) ++ t2 := by simp
    have hcut : knightChain (a :: (t1 ++ [b])) := by
      rw [knightChain] at hc ⊢
      exact List.Chain'.left_of_append (hsplit ▸ hc)
    have hval : validPath a b (a :: (t1 ++ [b])) := by
      refine ⟨rfl, ?_, hcut⟩
      have : a :: (t1 ++ [b]) = (a :: t1) ++ [b] := by simp
      rw [this, List.getLast?_concat]
    have hob : onBoardPath (a :: (t1 ++ [b])) := by
      intro x hx
      apply hb
      rcases List.mem_cons.mp hx with rfl | hx'
      · simp
      · rcases List.mem_append.mp hx' with h | h
        · simp [h]
        · simp only [List.mem_singleton] at h; subst h; simp
    have hr := validPath_reach hval hob
    refine ⟨(a :: (t1 ++ [b])).length - 1, ?_, hr⟩
    simp

/-- Connectivity: every board square is within 63 moves of every other. -/
theorem board_reachable63 {s g : V} (hs : onBoard s = true) (hg : onBoard g = true) :
    reachable63 s g := by
  have hst : s ∈ knightTour := knightTour_cover s hs
  have hgt : g ∈ knightTour := knightTour_cover g hg
  obtain ⟨u, t, he⟩ := List.append_of_mem hst
  have hlen : u.length + t.length + 1 = 64 := by
    have := congrArg List.length he
    rw [knightTour_length] at this
    simp at this
    omega
  rcases List.mem_append.mp (he ▸ hgt) with hgu | hgst
  · -- `g` occurs before `s` in the tour: walk the reversed tour.
    have hrev : knightChain knightTour.reverse := knightChain_reverse knightTour_chain
    have hsrev : knightTour.reverse = t.reverse ++ s :: u.reverse := by
      rw [he]
      simp
    have hc2 : knightChain (s :: u.reverse) := by
      rw [knightChain] at hrev ⊢
      rw [hsrev] at hrev
      exact List.Chain'.right_of_append hrev
    have hb2 : ∀ x ∈ s :: u.reverse, onBoard x = true := by
      intro x hx
      rcases List.mem_cons.mp hx with rfl | hx'
      · exact hs
      · exact knightTour_board x (he ▸ List.mem_append.mpr (Or.inl (List.mem_reverse.mp hx')))
    obtain ⟨n, hn, hmem⟩ := chain_suffix_reach hc2 hb2 g
      (List.mem_cons.mpr (Or.inr (List.mem_reverse.mpr hgu)))
    refine ⟨n, ?_, hmem⟩
    rw [List.length_reverse] at hn
    omega
  · have hc2 : knightChain (s :: t) := by
      have hch := knightTour_chain
      rw [knightChain] at hch ⊢
      rw [he] at hch
      exact List.Chain'.right_of_append hch
    have hb2 : ∀ x ∈ s :: t, onBoard x = true := by
      intro x hx
      exact knightTour_board x (he ▸ List.mem_append.mpr (Or.inr hx))
    obtain ⟨n, hn, hmem⟩ := chain_suffix_reach hc2 hb2 g hgst
    exact ⟨n, by omega, hmem⟩

theorem findAdjacents_nodup (v : V) : (findAdjacents v).Nodup := by
  apply List.Nodup.filter
  rcases v with ⟨r, c⟩
  simp only [movePatterns, List.nodup_cons, List.mem_cons, List.not_mem_nil,
    List.nodup_nil, Prod.mk.injEq, or_false, and_true]
  refine ⟨fun h => by omega, fun h => by omega, fun h => by omega, fun h => by omega,
          fun h => by omega, fun h => by omega, fun h => by omega, fun h => h⟩

/-! ### Properties of the constructed edge lists (C5, C6) -/

/-- The vertices of an edge table, in order. -/
def keysE (e : Edges) : List V := e.map (·.1)

theorem pushEdge_cons (k : V) (l : List V) (rest : Edges) (v w : V) :
    pushEdge ((k, l) :: rest) v w =
      (if (k == v) = true then (k, l ++ [w]) else (k, l)) :: pushEdge rest v w := rfl

theorem keysE_cons (k : V) (l : List V) (rest : Edges) :
    keysE ((k, l) :: rest) = k :: keysE rest := rfl

theorem lookupEdges_cons (k : V) (l : List V) (rest : Edges) (v : V) :
    lookupEdges ((k, l) :: rest) v = if (k == v) = true then l else lookupEdges rest v := by
  by_cases h : (k == v) = true
  · rw [if_pos h]
    simp [lookupEdges, List.find?_cons, h]
  · rw [if_neg h]
    rw [Bool.not_eq_true] at h
    simp [lookupEdges, List.find?_cons, h]

theorem keysE_pushEdge (e : Edges) (v w : V) : keysE (pushEdge e v w) = keysE e := by
  induction e with
  | nil => rfl
  | cons p rest ih =>
    rcases p with ⟨k, l⟩
    rw [pushEdge_cons]
    by_cases h : (k == v) = true
    · rw [if_pos h, keysE_cons, keysE_cons, ih]
    · rw [if_neg h, keysE_cons, keysE_cons, ih]

theorem lookupEdges_pushEdge_ne (e : Edges) {x v : V} (w : V) (h : x ≠ v) :
    lookupEdges (pushEdge e v w) x = lookupEdges e x := by
  induction e with
  | nil => rfl
  | cons p rest ih =>
    rcases p with ⟨k, l⟩
    rw [pushEdge_cons]
    by_cases hk : (k == v) = true
    · have hkv : k = v := by simpa using hk
      have hkx : (k == x) = false := by
        rw [beq_eq_false_iff_ne]
        rw [hkv]
        exact Ne.symm h
      rw [if_pos hk, lookupEdges_cons, lookupEdges_cons, hkx]
      simp only [Bool.false_eq_true, if_false]
      exact ih
    · rw [if_neg hk, lookupEdges_cons, lookupEdges_cons]
      by_cases hkx : (k == x) = true
      · rw [if_pos hkx, if_pos hkx]
      · rw [if_neg hkx, if_neg hkx]
        exact ih

theorem lookupEdges_pushEdge_self (e : Edges) {v : V} (w : V) (h : v ∈ keysE e) :
    lookupEdges (pushEdge e v w) v = lookupEdges e v ++ [w] := by
  induction e with
  | nil => simp [keysE] at h
  | cons p rest ih =>
    rcases p with ⟨k, l⟩
    rw [pushEdge_cons]
    by_cases hk : (k == v) = true
    · rw [if_pos hk, lookupEdges_cons, lookupEdges_cons, if_pos hk, if_pos hk]
    · rw [if_neg hk, lookupEdges_cons, lookupEdges_cons, if_neg hk, if_neg hk]
      apply ih
      rw [keysE_cons] at h
      rcases List.mem_cons.mp h with h' | h'
      · exfalso
        apply hk
        rw [beq_iff_eq]
        exact h'.symm
      · exact h'

theorem edgeExists_iff (e : Edges) (v1 v2 : V) :
    edgeExists e v1 v2 = true ↔ v1 ∈ lookupEdges e v2 := by
  simp only [edgeExists, List.any_eq_true]
  constructor
  · rintro ⟨cv, hcv, hb⟩
    have : cv = v1 := (pair_beq_iff cv v1).mp hb
    rwa [← this]
  · intro h
    exact ⟨v1, h, by simp⟩

/-- The three construction invariants: symmetry, every listed edge is a
knight move to a board square, and no duplicate entries. -/
def goodE (e : Edges) : Prop :=
  (∀ x y : V, y ∈ lookupEdges e x → x ∈ lookupEdges e y) ∧
  (∀ x y : V, y ∈ lookupEdges e x → y ∈ findAdjacents x) ∧
  (∀ x : V, (lookupEdges e x).Nodup)

theorem lookupEdges_initEdges (x : V) : lookupEdges initEdges x = [] := by
  have h : ∀ l : List V, lookupEdges (l.map fun v => (v, ([] : List V))) x = [] := by
    intro l
    induction l with
    | nil => rfl
    | cons a rest ih =>
      rw [List.map_cons, lookupEdges_cons]
      by_cases ha : (a == x) = true
      · simp [ha]
      · rw [Bool.not_eq_true] at ha
        simp [ha, ih]
  exact h allSquares

theorem goodE_initEdges : goodE initEdges := by
  refine ⟨?_, ?_, ?_⟩ <;> intro x <;> simp [lookupEdges_initEdges]

theorem keysE_initEdges : keysE initEdges = allSquares := by
  simp only [initEdges, keysE, List.map_map]
  have : ((fun p : V × List V => p.1) ∘ fun v => (v, ([] : List V))) = id := rfl
  rw [this, List.map_id]

/-- Effect of `createEdge` on the three lookups involved. -/
theorem createEdge_lookup (e : Edges) {v1 v2 : V} (hne : v1 ≠ v2)
    (h1 : v1 ∈ keysE e) (h2 : v2 ∈ keysE e) :
    lookupEdges (createEdge e v1 v2) v1 = lookupEdges e v1 ++ [v2] ∧
    lookupEdges (createEdge e v1 v2) v2 = lookupEdges e v2 ++ [v1] ∧
    ∀ x, x ≠ v1 → x ≠ v2 → lookupEdges (createEdge e v1 v2) x = lookupEdges e x := by
  refine ⟨?_, ?_, ?_⟩
  · rw [createEdge, lookupEdges_pushEdge_ne _ _ hne, lookupEdges_pushEdge_self _ _ h1]
  · rw [createEdge, lookupEdges_pushEdge_self _ _ (by rwa [keysE_pushEdge]),
      lookupEdges_pushEdge_ne _ _ (Ne.symm hne)]
  · intro x hx1 hx2
    rw [createEdge, lookupEdges_pushEdge_ne _ _ hx2, lookupEdges_pushEdge_ne _ _ hx1]

theorem keysE_createEdge (e : Edges) (v1 v2 : V) :
    keysE (createEdge e v1 v2) = keysE e := by
  rw [createEdge, keysE_pushEdge, keysE_pushEdge]

/-- `createEdge` preserves the construction invariants when linking a fresh
knight-move pair. -/
theorem goodE_createEdge {e : Edges} {u a : V} (hg : goodE e)
    (ha : a ∈ findAdjacents u) (hu : onBoard u = true)
    (hku : u ∈ keysE e) (hka : a ∈ keysE e)
    (hnotua : u ∉ lookupEdges e a) :
    goodE (createEdge e u a) ∧
    (∀ x, lookupEdges e x ⊆ lookupEdges (createEdge e u a) x) ∧
    a ∈ lookupEdges (createEdge e u a) u := by
  obtain ⟨hsym, hadj, hdup⟩ := hg
  have hne : u ≠ a := fun he => findAdjacents_not_self u (he ▸ ha)
  obtain ⟨hlu, hla, hlx⟩ := createEdge_lookup e hne hku hka
  have hnotau : a ∉ lookupEdges e u := fun hm => hnotua (hsym u a hm)
  have hgrow : ∀ x, lookupEdges e x ⊆ lookupEdges (createEdge e u a) x := by
    intro x
    by_cases hxu : x = u
    · rw [hxu, hlu]; exact fun y hy => List.mem_append.mpr (Or.inl hy)
    · by_cases hxa : x = a
      · rw [hxa, hla]; exact fun y hy => List.mem_append.mpr (Or.inl hy)
      · rw [hlx x hxu hxa]; exact fun y hy => hy
  have hmemu : ∀ {y : V}, y ∈ lookupEdges e u → y ≠ u := by
    intro y hy he
    rw [he] at hy
    exact findAdjacents_not_self u (hadj u u hy)
  have hmema : ∀ {y : V}, y ∈ lookupEdges e a → y ≠ a := by
    intro y hy he
    rw [he] at hy
    exact findAdjacents_not_self a (hadj a a hy)
  refine ⟨⟨?_, ?_, ?_⟩, hgrow, ?_⟩
  · -- symmetry
    intro x y hy
    by_cases hxu : x = u
    · rw [hxu] at hy
      rw [hxu]
      rw [hlu] at hy
      rcases List.mem_append.mp hy with hy' | hy'
      · by_cases hya : y = a
        · rw [hya, hla]; exact List.mem_append.mpr (Or.inr (by simp))
        · by_cases hyu : y = u
          · exact absurd hyu (hmemu hy')
          · rw [hlx y hyu hya]; exact hsym u y hy'
      · have hya : y = a := by simpa using hy'
        rw [hya, hla]; exact List.mem_append.mpr (Or.inr (by simp))
    · by_cases hxa : x = a
      · rw [hxa] at hy
        rw [hxa]
        rw [hla] at hy
        rcases List.mem_append.mp hy with hy' | hy'
        · by_cases hyu : y = u
          · rw [hyu, hlu]; exact List.mem_append.mpr (Or.inr (by simp))
          · by_cases hya : y = a
            · exact absurd hya (hmema hy')
            · rw [hlx y hyu hya]; exact hsym a y hy'
        · have hyu : y = u := by simpa using hy'
          rw [hyu, hlu]; exact List.mem_append.mpr (Or.inr (by simp))
      · rw [hlx x hxu hxa] at hy
        exact hgrow y (hsym x y hy)
  · -- listed edges are knight moves to board squares
    intro x y hy
    by_cases hxu : x = u
    · rw [hxu] at hy
      rw [hxu]
      rw [hlu] at hy
      rcases List.mem_append.mp hy with hy' | hy'
      · exact hadj u y hy'
      · have hya : y = a := by simpa using hy'
        rw [hya]; exact ha
    · by_cases hxa : x = a
      · rw [hxa] at hy
        rw [hxa]
        rw [hla] at hy
        rcases List.mem_append.mp hy with hy' | hy'
        · exact hadj a y hy'
        · have hyu : y = u := by simpa using hy'
          rw [hyu]
          obtain ⟨hk, _⟩ := (mem_findAdjacents u).mp ha
          exact (mem_findAdjacents a).mpr ⟨by rw [isKnightMove_symm]; exact hk, hu⟩
      · rw [hlx x hxu hxa] at hy
        exact hadj x y hy
  · -- no duplicates
    intro x
    by_cases hxu : x = u
    · rw [hxu, hlu, List.nodup_append]
      refine ⟨hdup u, List.nodup_singleton a, ?_⟩
      intro y hy hya
      have : y = a := by simpa using hya
      rw [this] at hy
      exact hnotau hy
    · by_cases hxa : x = a
      · rw [hxa, hla, List.nodup_append]
        refine ⟨hdup a, List.nodup_singleton u, ?_⟩
        intro y hy hyu
        have : y = u := by simpa using hyu
        rw [this] at hy
        exact hnotua hy
      · rw [hlx x hxu hxa]; exact hdup x
  · rw [hlu]; exact List.mem_append.mpr (Or.inr (by simp))

/-- The inner `forEach` of `#connectAdjacents`, processing a list of
adjacents of `u`, preserves the invariants and links every processed
adjacent. -/
theorem connectAdjacents_fold_spec (u : V) (hu : onBoard u = true) :
    ∀ (adjs : List V) (e : Edges), (∀ a ∈ adjs, a ∈ findAdjacents u) →
      goodE e → keysE e = allSquares →
      goodE (adjs.foldl
        (fun e adjacent => if edgeExists e u adjacent then e else createEdge e u adjacent) e) ∧
      keysE (adjs.foldl
        (fun e adjacent => if edgeExists e u adjacent then e else createEdge e u adjacent) e)
        = allSquares ∧
      (∀ x, lookupEdges e x ⊆ lookupEdges (adjs.foldl
        (fun e adjacent => if edgeExists e u adjacent then e else createEdge e u adjacent) e) x) ∧
      (∀ a ∈ adjs, a ∈ lookupEdges (adjs.foldl
        (fun e adjacent => if edgeExists e u adjacent then e else createEdge e u adjacent) e) u) := by
  intro adjs
  induction adjs with
  | nil =>
    intro e _ hg hk
    exact ⟨hg, hk, fun x y hy => hy, by simp⟩
  | cons a rest ih =>
    intro e hmem hg hk
    have ha : a ∈ findAdjacents u := hmem a (by simp)
    rw [List.foldl_cons]
    by_cases hex : edgeExists e u a = true
    · rw [if_pos hex]
      obtain ⟨hg2, hk2, hgrow2, hdone2⟩ := ih e (fun b hb => hmem b (by simp [hb])) hg hk
      refine ⟨hg2, hk2, hgrow2, ?_⟩
      intro b hb
      rcases List.mem_cons.mp hb with rfl | hb'
      · have h1 : u ∈ lookupEdges e b := (edgeExists_iff e u b).mp hex
        exact hgrow2 u (hg.1 b u h1)
      · exact hdone2 b hb'
    · rw [if_neg hex]
      have hku : u ∈ keysE e := by rw [hk, mem_allSquares]; exact hu
      have hka : a ∈ keysE e := by rw [hk, mem_allSquares]; exact findAdjacents_onBoard ha
      have hnotua : u ∉ lookupEdges e a := fun hm => hex ((edgeExists_iff e u a).mpr hm)
      obtain ⟨hg1, hgrow1, hdone1⟩ := goodE_createEdge hg ha hu hku hka hnotua
      have hk1 : keysE (createEdge e u a) = allSquares := by rw [keysE_createEdge, hk]
      obtain ⟨hg2, hk2, hgrow2, hdone2⟩ :=
        ih (createEdge e u a) (fun b hb => hmem b (by simp [hb])) hg1 hk1
      refine ⟨hg2, hk2, fun x y hy => hgrow2 x (hgrow1 x hy), ?_⟩
      intro b hb
      rcases List.mem_cons.mp hb with rfl | hb'
      · exact hgrow2 u hdone1
      · exact hdone2 b hb'

/-- The full construction: invariants of `boardEdges`, and every board
square is linked to each of its knight-move neighbours. -/
theorem boardEdges_spec :
    goodE boardEdges ∧
    (∀ u, onBoard u = true → ∀ a ∈ findAdjacents u, a ∈ lookupEdges boardEdges u) := by
  suffices h : ∀ (l : List V) (e : Edges), (∀ u ∈ l, onBoard u = true) →
      goodE e → keysE e = allSquares →
      goodE (l.foldl connectAdjacents e) ∧
      keysE (l.foldl connectAdjacents e) = allSquares ∧
      (∀ x, lookupEdges e x ⊆ lookupEdges (l.foldl connectAdjacents e) x) ∧
      (∀ u ∈ l, ∀ a ∈ findAdjacents u, a ∈ lookupEdges (l.foldl connectAdjacents e) u) by
    obtain ⟨hg, _, _, hdone⟩ := h allSquares initEdges
      (fun u hu => (mem_allSquares u).mp hu) goodE_initEdges keysE_initEdges
    exact ⟨hg, fun u hu => hdone u ((mem_allSquares u).mpr hu)⟩
  intro l
  induction l with
  | nil =>
    intro e _ hg hk
    exact ⟨hg, hk, fun x y hy => hy, by simp⟩
  | cons u rest ih =>
    intro e hmem hg hk
    have hu : onBoard u = true := hmem u (by simp)
    rw [List.foldl_cons]
    obtain ⟨hg1, hk1, hgrow1, hdone1⟩ :=
      connectAdjacents_fold_spec u hu (findAdjacents u) e (fun a ha => ha) hg hk
    obtain ⟨hg2, hk2, hgrow2, hdone2⟩ :=
      ih (connectAdjacents e u) (fun v hv => hmem v (by simp [hv])) hg1 hk1
    refine ⟨hg2, hk2, fun x y hy => hgrow2 x (hgrow1 x hy), ?_⟩
    intro v hv
    rcases List.mem_cons.mp hv with rfl | hv'
    · exact fun a ha => hgrow2 v (hdone1 a ha)
    · exact hdone2 v hv'

/-- Membership in a constructed edge list, for board squares. -/
theorem mem_edgesOf {v : V} (hv : onBoard v = true) (y : V) :
    y ∈ edgesOf v ↔ y ∈ findAdjacents v := by
  obtain ⟨⟨_, hadj, _⟩, hdone⟩ := boardEdges_spec
  exact ⟨fun h => hadj v y h, fun h => hdone v hv y h⟩

theorem edgesOf_symm (a b : V) : b ∈ edgesOf a ↔ a ∈ edgesOf b := by
  obtain ⟨⟨hsym, _, _⟩, _⟩ := boardEdges_spec
  exact ⟨fun h => hsym a b h, fun h => hsym b a h⟩

theorem edgesOf_irrefl (a : V) : a ∉ edgesOf a := by
  obtain ⟨⟨_, hadj, _⟩, _⟩ := boardEdges_spec
  exact fun h => findAdjacents_not_self a (hadj a a h)

theorem edgesOf_nodup (v : V) : (edgesOf v).Nodup := by
  obtain ⟨⟨_, _, hdup⟩, _⟩ := boardEdges_spec
  exact hdup v

theorem edgesOf_length {v : V} (hv : onBoard v = true) :
    (edgesOf v).length = (findAdjacents v).length := by
  have hperm : List.Perm (edgesOf v) (findAdjacents v) :=
    (List.perm_ext_iff_of_nodup (edgesOf_nodup v) (findAdjacents_nodup v)).mpr
      (mem_edgesOf hv)
  exact hperm.length_eq

/-! ### The `previous` write log: well-formedness and path reconstruction

Both searches only ever append (prepend, in this shadowing model) to the
`previous` log and read it exclusively inside `#reconstructPath`.  The log
written by a single run is well formed: each assigned vertex is assigned
once, is never the start vertex, and its predecessor was assigned earlier
(or is the start vertex). -/

/-- The vertices whose `previous` field the log assigns. -/
def keysP (w : Prev) : List V := w.map (·.1)

/-- Well-formedness of a single run's write log with start vertex `s`. -/
def WFP : Prev → V → Prop
  | [], _ => True
  | (a, v) :: w, s => WFP w s ∧ a ∉ keysP w ∧ a ≠ s ∧ (v = s ∨ v ∈ keysP w)

theorem lookupPrev_cons (a b : V) (w : Prev) (v : V) :
    lookupPrev ((a, b) :: w) v = if (a == v) = true then some b else lookupPrev w v := by
  by_cases h : (a == v) = true
  · rw [if_pos h]
    simp [lookupPrev, List.find?_cons, h]
  · rw [if_neg h]
    rw [Bool.not_eq_true] at h
    simp [lookupPrev, List.find?_cons, h]

theorem keysP_cons (a b : V) (w : Prev) : keysP ((a, b) :: w) = a :: keysP w := rfl

theorem keysP_append (w1 w2 : Prev) : keysP (w1 ++ w2) = keysP w1 ++ keysP w2 := by
  simp [keysP]

theorem lookupPrev_eq_none {w : Prev} {v : V} (h : v ∉ keysP w) :
    lookupPrev w v = none := by
  induction w with
  | nil => rfl
  | cons pr rest ih =>
    rcases pr with ⟨a, b⟩
    rw [keysP_cons] at h
    rw [lookupPrev_cons, if_neg, ih (fun hm => h (List.mem_cons.mpr (Or.inr hm)))]
    intro he
    have hav : a = v := by simpa using he
    exact h (List.mem_cons.mpr (Or.inl hav.symm))

/-- On the keys of `w`, a lookup in `w ++ w0` does not see `w0`. -/
theorem lookupPrev_append_left {w : Prev} {v : V} (w0 : Prev) (h : v ∈ keysP w) :
    lookupPrev (w ++ w0) v = lookupPrev w v := by
  induction w with
  | nil => simp [keysP] at h
  | cons pr rest ih =>
    rcases pr with ⟨a, b⟩
    rw [List.cons_append, lookupPrev_cons, lookupPrev_cons]
    by_cases ha : (a == v) = true
    · rw [if_pos ha, if_pos ha]
    · rw [if_neg ha, if_neg ha]
      apply ih
      rw [keysP_cons] at h
      rcases List.mem_cons.mp h with h' | h'
      · exact absurd (by rw [beq_iff_eq]; exact h'.symm) ha
      · exact h'

/-- Reconstruction over a well-formed write log: for every assigned vertex
(and for the start itself) the backward walk terminates at the start and
yields the predecessor chain — independent of the accumulator, of the fuel
(once above the log length), and of any older shadowed log entries. -/
theorem reconstruct_general {s : V} :
    ∀ (w : Prev), WFP w s →
    ∀ x, (x = s ∨ x ∈ keysP w) →
    ∃ p : List V,
      (∀ wbig : Prev, (∀ z, z ∈ keysP w → lookupPrev wbig z = lookupPrev w z) →
        ∀ fuel acc, w.length + 1 ≤ fuel →
        reconstructPath wbig fuel x s acc = some ((acc ++ p.reverse).reverse)) ∧
      p.head? = some s ∧ p.getLast? = some x ∧
      (∀ z ∈ p, z = s ∨ z ∈ keysP w) ∧
      List.Chain' (fun uu vv => (vv, uu) ∈ w) p := by
  intro w
  induction w with
  | nil =>
    intro _ x hx
    have hxs : x = s := by
      rcases hx with h | h
      · exact h
      · simp [keysP] at h
    subst hxs
    refine ⟨[x], ?_, rfl, rfl, by simp, by simp⟩
    intro wbig _ fuel acc hfuel
    match fuel, hfuel with
    | f + 1, _ =>
      simp [reconstructPath]
  | cons pr w' ih =>
    rcases pr with ⟨a, b⟩
    intro hwf x hx
    obtain ⟨hwf', hnk, hns, hb⟩ := hwf
    have hagree'of : ∀ wbig : Prev,
        (∀ z, z ∈ keysP ((a, b) :: w') → lookupPrev wbig z = lookupPrev ((a, b) :: w') z) →
        ∀ z, z ∈ keysP w' → lookupPrev wbig z = lookupPrev w' z := by
      intro wbig hagree z hz
      have hza : z ≠ a := fun he => hnk (he ▸ hz)
      rw [hagree z (by rw [keysP_cons]; exact List.mem_cons.mpr (Or.inr hz)),
        lookupPrev_cons, if_neg]
      intro he
      have hav : a = z := by simpa using he
      exact hza hav.symm
    rcases hx with hxs | hxk
    · subst hxs
      refine ⟨[x], ?_, rfl, rfl, by simp, by simp⟩
      intro wbig _ fuel acc hfuel
      match fuel, hfuel with
      | f + 1, _ =>
        simp [reconstructPath]
    · rw [keysP_cons] at hxk
      rcases List.mem_cons.mp hxk with hxa | hxk'
      · -- x is the newest assignment: one step to `b`, then the chain of `w'`.
        obtain ⟨p', heval', hhead', hlast', hmem', hchain'⟩ := ih hwf' b hb
        refine ⟨p' ++ [x], ?_, ?_, by simp, ?_, ?_⟩
        · intro wbig hagree fuel acc hfuel
          match fuel, hfuel with
          | f + 1, hf =>
            have hxns : (x == s) = false := by
              rw [beq_eq_false_iff_ne]
              rw [hxa]; exact hns
            have hlook : lookupPrev wbig x = some b := by
              rw [hagree x (by rw [keysP_cons]; exact List.mem_cons.mpr (Or.inl hxa)),
                hxa, lookupPrev_cons, if_pos (by simp)]
            have hstep : reconstructPath wbig (f + 1) x s acc
                = reconstructPath wbig f b s (acc ++ [x]) := by
              rw [reconstructPath, if_neg (by rw [hxns]; exact Bool.false_ne_true), hlook]
            have hf' : w'.length + 1 ≤ f := by
              simp only [List.length_cons] at hf
              omega
            rw [hstep, heval' wbig (hagree'of wbig hagree) f (acc ++ [x]) hf']
            congr 1
            simp [List.reverse_append]
        · rcases p' with _ | ⟨z, t⟩
          · simp at hhead'
          · simpa using hhead'
        · intro z hz
          rcases List.mem_append.mp hz with h | h
          · rcases hmem' z h with h' | h'
            · exact Or.inl h'
            · exact Or.inr (by rw [keysP_cons]; exact List.mem_cons.mpr (Or.inr h'))
          · have : z = x := by simpa using h
            exact Or.inr (by rw [keysP_cons, this]; exact List.mem_cons.mpr (Or.inl hxa))
        · rw [List.chain'_append]
          refine ⟨hchain'.imp (fun uu vv hm => List.mem_cons.mpr (Or.inr hm)), by simp, ?_⟩
          intro z hz y hy
          simp only [List.head?_cons, Option.mem_def, Option.some.injEq] at hy
          rw [hlast'] at hz
          simp only [Option.mem_def, Option.some.injEq] at hz
          rw [← hy, ← hz, hxa]
          exact List.mem_cons.mpr (Or.inl rfl)
      · -- x was assigned earlier: reuse the chain of `w'`.
        obtain ⟨p', heval', hhead', hlast', hmem', hchain'⟩ := ih hwf' x (Or.inr hxk')
        refine ⟨p', ?_, hhead', hlast', ?_, ?_⟩
        · intro wbig hagree fuel acc hfuel
          apply heval' wbig (hagree'of wbig hagree)
          simp only [List.length_cons] at hfuel
          omega
        · intro z hz
          rcases hmem' z hz with h' | h'
          · exact Or.inl h'
          · exact Or.inr (by rw [keysP_cons]; exact List.mem_cons.mpr (Or.inr h'))
        · exact hchain'.imp (fun uu vv hm => List.mem_cons.mpr (Or.inr hm))

/-! ### Closed forms of the frontier-insertion loops -/

theorem processAdjacents_cons (v a : V) (rest front e2 : List V) (w : Prev) :
    processAdjacents v (a :: rest) front e2 w =
      if (!isVertexInArray a front && !isVertexInArray a e2) = true
      then processAdjacents v rest (front ++ [a]) e2 ((a, v) :: w)
      else processAdjacents v rest front e2 w := by
  by_cases ht : (!isVertexInArray a front && !isVertexInArray a e2) = true
  · rw [if_pos ht]
    simp only [processAdjacents, List.foldl_cons]
    rw [if_pos ht]
  · rw [if_neg ht]
    simp only [processAdjacents, List.foldl_cons]
    rw [if_neg ht]

theorem processAdjacentsStack_cons (v a : V) (rest stack e2 : List V) (w : Prev) :
    processAdjacentsStack v (a :: rest) stack e2 w =
      if (!isVertexInArray a stack && !isVertexInArray a e2) = true
      then processAdjacentsStack v rest (a :: stack) e2 ((a, v) :: w)
      else processAdjacentsStack v rest stack e2 w := by
  by_cases ht : (!isVertexInArray a stack && !isVertexInArray a e2) = true
  · rw [if_pos ht]
    simp only [processAdjacentsStack, List.foldl_cons]
    rw [if_pos ht]
  · rw [if_neg ht]
    simp only [processAdjacentsStack, List.foldl_cons]
    rw [if_neg ht]

theorem not_in_test {a : V} {l1 l2 : List V} :
    (!isVertexInArray a l1 && !isVertexInArray a l2) = true ↔ (a ∉ l1 ∧ a ∉ l2) := by
  rw [Bool.and_eq_true, Bool.not_eq_true', Bool.not_eq_true',
    isVertexInArray_false_iff, isVertexInArray_false_iff]

/-- Closed form of the `forEach` in `knightMovesBFS`: the undiscovered
adjacents are appended to the queue, in order, and assigned
`previous = vertex`; nothing else changes. -/
theorem processAdjacents_spec (v : V) :
    ∀ (adjs front e2 : List V),
    ∃ new : List V,
      (∀ w : Prev, processAdjacents v adjs front e2 w
        = (front ++ new, (new.map (fun a => (a, v))).reverse ++ w)) ∧
      new.Nodup ∧
      (∀ a ∈ new, a ∈ adjs ∧ a ∉ front ∧ a ∉ e2) ∧
      (∀ a ∈ adjs, a ∈ front ++ new ∨ a ∈ e2) := by
  intro adjs
  induction adjs with
  | nil =>
    intro front e2
    exact ⟨[], fun w => by simp [processAdjacents], by simp, by simp, by simp⟩
  | cons a rest ih =>
    intro front e2
    by_cases ht : (!isVertexInArray a front && !isVertexInArray a e2) = true
    · obtain ⟨hnf, hne⟩ := not_in_test.mp ht
      obtain ⟨new', heq, hnd, hprop, hcov⟩ := ih (front ++ [a]) e2
      refine ⟨a :: new', ?_, ?_, ?_, ?_⟩
      · intro w
        rw [processAdjacents_cons, if_pos ht, heq ((a, v) :: w)]
        simp
      · rw [List.nodup_cons]
        refine ⟨?_, hnd⟩
        intro hmem
        exact ((hprop a hmem).2.1) (by simp)
      · intro b hb
        rcases List.mem_cons.mp hb with rfl | hb'
        · exact ⟨by simp, hnf, hne⟩
        · obtain ⟨h1, h2, h3⟩ := hprop b hb'
          refine ⟨by simp [h1], ?_, h3⟩
          intro hm
          exact h2 (by simp [hm])
      · intro b hb
        rcases List.mem_cons.mp hb with rfl | hb'
        · exact Or.inl (by simp)
        · rcases hcov b hb' with h | h
          · left
            rcases List.mem_append.mp h with h' | h'
            · rcases List.mem_append.mp h' with h'' | h''
              · exact List.mem_append.mpr (Or.inl h'')
              · have hba : b = a := by simpa using h''
                rw [hba]; simp
            · exact List.mem_append.mpr (Or.inr (by simp [h']))
          · exact Or.inr h
    · have hcase : a ∈ front ∨ a ∈ e2 := by
        by_contra hcon
        push_neg at hcon
        exact ht (not_in_test.mpr hcon)
      obtain ⟨new', heq, hnd, hprop, hcov⟩ := ih front e2
      refine ⟨new', fun w => by rw [processAdjacents_cons, if_neg ht, heq w], hnd,
        fun b hb => ⟨List.mem_cons.mpr (Or.inr (hprop b hb).1), (hprop b hb).2.1,
          (hprop b hb).2.2⟩, ?_⟩
      intro b hb
      rcases List.mem_cons.mp hb with rfl | hb'
      · rcases hcase with h | h
        · exact Or.inl (List.mem_append.mpr (Or.inl h))
        · exact Or.inr h
      · exact hcov b hb'

/-- Closed form of the `forEach` in `knightMovesDFS` (top-first stack). -/
theorem processAdjacentsStack_spec (v : V) :
    ∀ (adjs stack e2 : List V),
    ∃ new : List V,
      (∀ w : Prev, processAdjacentsStack v adjs stack e2 w
        = (new ++ stack, new.map (fun a => (a, v)) ++ w)) ∧
      new.Nodup ∧
      (∀ a ∈ new, a ∈ adjs ∧ a ∉ stack ∧ a ∉ e2) ∧
      (∀ a ∈ adjs, a ∈ new ++ stack ∨ a ∈ e2) := by
  intro adjs
  induction adjs with
  | nil =>
    intro stack e2
    exact ⟨[], fun w => by simp [processAdjacentsStack], by simp, by simp, by simp⟩
  | cons a rest ih =>
    intro stack e2
    by_cases ht : (!isVertexInArray a stack && !isVertexInArray a e2) = true
    · obtain ⟨hnf, hne⟩ := not_in_test.mp ht
      obtain ⟨new', heq, hnd, hprop, hcov⟩ := ih (a :: stack) e2
      refine ⟨new' ++ [a], ?_, ?_, ?_, ?_⟩
      · intro w
        rw [processAdjacentsStack_cons, if_pos ht, heq ((a, v) :: w)]
        simp
      · rw [List.nodup_append]
        refine ⟨hnd, List.nodup_singleton a, ?_⟩
        intro b hb hba
        have : b = a := by simpa using hba
        rw [this] at hb
        exact ((hprop a hb).2.1) (by simp)
      · intro b hb
        rcases List.mem_append.mp hb with hb' | hb'
        · obtain ⟨h1, h2, h3⟩ := hprop b hb'
          refine ⟨by simp [h1], ?_, h3⟩
          intro hm
          exact h2 (by simp [hm])
        · have : b = a := by simpa using hb'
          rw [this]
          exact ⟨by simp, hnf, hne⟩
      · intro b hb
        rcases List.mem_cons.mp hb with rfl | hb'
        · exact Or.inl (by simp)
        · rcases hcov b hb' with h | h
          · left
            rcases List.mem_append.mp h with h' | h'
            · exact List.mem_append.mpr (Or.inl (List.mem_append.mpr (Or.inl h')))
            · rcases List.mem_cons.mp h' with rfl | h''
              · exact List.mem_append.mpr (Or.inl (List.mem_append.mpr (Or.inr (by simp))))
              · exact List.mem_append.mpr (Or.inr h'')
          · exact Or.inr h
    · have hcase : a ∈ stack ∨ a ∈ e2 := by
        by_contra hcon
        push_neg at hcon
        exact ht (not_in_test.mpr hcon)
      obtain ⟨new', heq, hnd, hprop, hcov⟩ := ih stack e2
      refine ⟨new', fun w => by rw [processAdjacentsStack_cons, if_neg ht, heq w], hnd,
        fun b hb => ⟨List.mem_cons.mpr (Or.inr (hprop b hb).1), (hprop b hb).2.1,
          (hprop b hb).2.2⟩, ?_⟩
      intro b hb
      rcases List.mem_cons.mp hb with rfl | hb'
      · rcases hcase with h | h
        · exact Or.inl (List.mem_append.mpr (Or.inr h))
        · exact Or.inr h
      · exact hcov b hb'

/-! ### The run invariant shared by both searches -/

/-- State invariant maintained by both search loops for a run started at
`s` searching for `g`: `q` is the frontier (order irrelevant at this
level), `e` the explored list, `w` the run's write log so far. -/
structure Core (s g : V) (q e : List V) (w : Prev) : Prop where
  nodup : (q ++ e).Nodup
  board : ∀ x ∈ q ++ e, onBoard x = true
  smem : s ∈ q ++ e
  keys_iff : ∀ x : V, x ∈ keysP w ↔ (x ∈ q ++ e ∧ x ≠ s)
  wf : WFP w s
  adjw : ∀ pr ∈ w, pr.1 ∈ findAdjacents pr.2
  gnot : g ∉ e
  closed : ∀ y ∈ e, ∀ b ∈ findAdjacents y, b ∈ q ++ e

theorem Core_init {s g : V} (hs : onBoard s = true) (hneq : g ∉ ([] : List V)) :
    Core s g [s] [] [] := by
  refine ⟨by simp, ?_, by simp, ?_, trivial, by simp, hneq, by simp⟩
  · intro x hx
    have : x = s := by simpa using hx
    rwa [this]
  · intro x
    simp only [keysP, List.map_nil, List.not_mem_nil, false_iff]
    rintro ⟨hx, hxs⟩
    exact hxs (by simpa using hx)

theorem board_list_le {l : List V} (hnd : l.Nodup) (hb : ∀ x ∈ l, onBoard x = true) :
    l.length ≤ 64 := by
  have hsub : l ⊆ allSquares := fun x hx => (mem_allSquares x).mpr (hb x hx)
  have h := (hnd.subperm hsub).length_le
  rwa [allSquares_length] at h

theorem explored_le_63 {e : List V} {g : V} (hnd : e.Nodup)
    (hb : ∀ x ∈ e, onBoard x = true) (hg : onBoard g = true) (hgn : g ∉ e) :
    e.length ≤ 63 := by
  have h : (g :: e).length ≤ 64 := by
    apply board_list_le
    · rw [List.nodup_cons]; exact ⟨hgn, hnd⟩
    · intro x hx
      rcases List.mem_cons.mp hx with rfl | hx'
      · exact hg
      · exact hb x hx'
  simpa using h

theorem WFP_keys_nodup {s : V} : ∀ {w : Prev}, WFP w s → (keysP w).Nodup := by
  intro w
  induction w with
  | nil => intro _; simp [keysP]
  | cons pr rest ih =>
    rcases pr with ⟨a, b⟩
    rintro ⟨hwf, hnk, _, _⟩
    rw [keysP_cons, List.nodup_cons]
    exact ⟨hnk, ih hwf⟩

/-- Extending a well-formed log by a block of fresh assignments whose common
predecessor is already assigned (the dequeued vertex). -/
theorem WFP_block_rev {s v : V} {w : Prev} (hwf : WFP w s) (hv : v = s ∨ v ∈ keysP w) :
    ∀ new : List V, new.Nodup → (∀ a ∈ new, a ∉ keysP w ∧ a ≠ s) →
      WFP ((new.map (fun a => (a, v))).reverse ++ w) s := by
  intro new
  induction new generalizing w with
  | nil => intro _ _; simpa using hwf
  | cons a rest ih =>
    intro hnd hprop
    rw [List.map_cons, List.reverse_cons, List.append_assoc, List.singleton_append]
    apply ih (w := (a, v) :: w)
    · exact ⟨hwf, (hprop a (by simp)).1, (hprop a (by simp)).2, hv⟩
    · rcases hv with h | h
      · exact Or.inl h
      · exact Or.inr (by rw [keysP_cons]; exact List.mem_cons.mpr (Or.inr h))
    · exact (List.nodup_cons.mp hnd).2
    · intro b hb
      rw [keysP_cons]
      refine ⟨?_, (hprop b (by simp [hb])).2⟩
      intro hm
      rcases List.mem_cons.mp hm with h | h
      · exact (List.nodup_cons.mp hnd).1 (h ▸ hb)
      · exact (hprop b (by simp [hb])).1 h

/-- Same, for the stack variant where the block is not reversed. -/
theorem WFP_block {s v : V} {w : Prev} (hwf : WFP w s) (hv : v = s ∨ v ∈ keysP w) :
    ∀ new : List V, new.Nodup → (∀ a ∈ new, a ∉ keysP w ∧ a ≠ s) →
      WFP (new.map (fun a => (a, v)) ++ w) s := by
  intro new
  induction new with
  | nil => intro _ _; simpa using hwf
  | cons a rest ih =>
    intro hnd hprop
    rw [List.map_cons, List.cons_append]
    have hwrest : WFP (rest.map (fun a => (a, v)) ++ w) s :=
      ih (List.nodup_cons.mp hnd).2 (fun b hb => hprop b (by simp [hb]))
    have hkeys : keysP (rest.map (fun a => (a, v)) ++ w) = rest ++ keysP w := by
      rw [keysP_append]
      congr 1
      rw [keysP, List.map_map]
      have hcomp : ((fun x : V × V => x.1) ∘ fun a : V => (a, v)) = id := rfl
      rw [hcomp, List.map_id]
    refine ⟨hwrest, ?_, (hprop a (by simp)).2, ?_⟩
    · rw [hkeys]
      intro hm
      rcases List.mem_append.mp hm with h | h
      · exact (List.nodup_cons.mp hnd).1 h
      · exact (hprop a (by simp)).1 h
    · rcases hv with h | h
      · exact Or.inl h
      · exact Or.inr (by rw [hkeys]; exact List.mem_append.mpr (Or.inr h))

/-- Distances along a chain of run writes grow by exactly one per step. -/
theorem chain_write_dist {s : V} {w : Prev}
    (hdw : ∀ pr ∈ w, graphDist s pr.1 = graphDist s pr.2 + 1) :
    ∀ (t : List V) (a : V), List.Chain' (fun uu vv => (vv, uu) ∈ w) (a :: t) →
      ∀ z, (a :: t).getLast? = some z → graphDist s z = graphDist s a + t.length := by
  intro t
  induction t with
  | nil =>
    intro a _ z hz
    have hza : a = z := by simpa using hz
    rw [← hza]; simp
  | cons b t' ih =>
    intro a hc z hz
    rw [List.chain'_cons] at hc
    have hstep : graphDist s b = graphDist s a + 1 := hdw (b, a) hc.1
    have hz' : (b :: t').getLast? = some z := by
      rw [← List.getLast?_cons_cons]; exact hz
    have := ih b hc.2 z hz'
    rw [this, hstep]
    simp
    omega

/-! ### The BFS layering invariant and the full BFS run analysis -/

/-- BFS-specific invariant: the queue splits into a block at distance `k`
followed by a block at distance `k + 1`; all lower layers are explored. -/
structure Layer (s : V) (q1 q2 e : List V) (w : Prev) (k : Nat) : Prop where
  d1 : ∀ x ∈ q1, graphDist s x = k
  d2 : ∀ x ∈ q2, graphDist s x = k + 1
  lower : ∀ x : V, onBoard x = true → graphDist s x < k → x ∈ e
  atk : ∀ x : V, onBoard x = true → graphDist s x = k → (x ∈ e ∨ x ∈ q1)
  ebound : ∀ x ∈ e, graphDist s x ≤ k
  dw : ∀ pr ∈ w, graphDist s pr.1 = graphDist s pr.2 + 1

theorem keysP_map_pair (new : List V) (v : V) :
    keysP (new.map (fun a => (a, v))) = new := by
  rw [keysP, List.map_map]
  have hcomp : ((fun x : V × V => x.1) ∘ fun a : V => (a, v)) = id := rfl
  rw [hcomp, List.map_id]

theorem mem_keysP_block_rev {new : List V} {v : V} {w : Prev} (x : V) :
    x ∈ keysP ((new.map (fun a => (a, v))).reverse ++ w) ↔ (x ∈ new ∨ x ∈ keysP w) := by
  rw [keysP_append, List.mem_append]
  have h : keysP ((new.map (fun a => (a, v))).reverse) = new.reverse := by
    rw [keysP, List.map_reverse, ← keysP, keysP_map_pair]
  rw [h, List.mem_reverse]

theorem mem_keysP_block {new : List V} {v : V} {w : Prev} (x : V) :
    x ∈ keysP (new.map (fun a => (a, v)) ++ w) ↔ (x ∈ new ∨ x ∈ keysP w) := by
  rw [keysP_append, List.mem_append, keysP_map_pair]

/-- When the distance-`k` block of the queue is exhausted, the whole queue
is the next layer: re-view the state one layer up. -/
theorem Layer_shift {s g : V} {q2 e : List V} {w : Prev} {k : Nat}
    (hs : onBoard s = true)
    (hc : Core s g q2 e w) (hl : Layer s ([] : List V) q2 e w k) :
    Layer s q2 ([] : List V) e w (k + 1) := by
  have hlow' : ∀ x : V, onBoard x = true → graphDist s x < k + 1 → x ∈ e := by
    intro x hx hd
    rcases Nat.lt_succ_iff_lt_or_eq.mp hd with h | h
    · exact hl.lower x hx h
    · rcases hl.atk x hx h with h' | h'
      · exact h'
      · simp at h'
  refine ⟨hl.d2, by simp, hlow', ?_, ?_, hl.dw⟩
  · intro x hx hd
    obtain ⟨y, hyb, hyd, hyadj⟩ :=
      graphDist_pred hs (board_reachable63 hs hx) hd
    have hye : y ∈ e := hlow' y hyb (by omega)
    have := hc.closed y hye x hyadj
    exact (List.mem_append.mp this).symm.imp id id
  · intro x hx
    exact Nat.le_succ_of_le (hl.ebound x hx)

/-- One non-goal iteration of the BFS loop, from the invariant's viewpoint:
dequeue `v` (in the distance-`k` block), append its fresh adjacents (all at
distance `k + 1`), log their predecessors. -/
theorem bfs_step {s g v : V} {q1' q2 e : List V} {w : Prev} {k : Nat}
    (hs : onBoard s = true)
    (hc : Core s g ((v :: q1') ++ q2) e w)
    (hl : Layer s (v :: q1') q2 e w k)
    (hvg : v ≠ g) :
    ∃ new : List V,
      (∀ w0 : Prev, processAdjacents v (findAdjacents v) (q1' ++ q2) (e ++ [v]) (w ++ w0)
        = (q1' ++ (q2 ++ new), (((new.map (fun a => (a, v))).reverse ++ w) ++ w0))) ∧
      Core s g (q1' ++ (q2 ++ new)) (e ++ [v]) ((new.map (fun a => (a, v))).reverse ++ w) ∧
      Layer s q1' (q2 ++ new) (e ++ [v]) ((new.map (fun a => (a, v))).reverse ++ w) k := by
  obtain ⟨new, heqn, hnd, hprop, hcov⟩ :=
    processAdjacents_spec v (findAdjacents v) (q1' ++ q2) (e ++ [v])
  -- Facts about the old state.
  have hold : ((v :: q1') ++ q2) ++ e = v :: ((q1' ++ q2) ++ e) := by simp
  have hnod := hc.nodup
  rw [hold, List.nodup_cons] at hnod
  obtain ⟨hvnot, hnod'⟩ := hnod
  have hvq : v ∉ q1' ++ q2 := fun h => hvnot (List.mem_append.mpr (Or.inl h))
  have hve : v ∉ e := fun h => hvnot (List.mem_append.mpr (Or.inr h))
  have hoard : ∀ x, x ∈ (q1' ++ q2) ++ e ∨ x = v → onBoard x = true := by
    intro x hx
    apply hc.board
    rw [hold]
    rcases hx with h | h
    · exact List.mem_cons.mpr (Or.inr h)
    · exact List.mem_cons.mpr (Or.inl h)
  have hvb : onBoard v = true := hoard v (Or.inr rfl)
  have hdv : graphDist s v = k := hl.d1 v (by simp)
  -- Fresh adjacents are new vertices of the next layer.
  have hfresh : ∀ a ∈ new, a ∉ (q1' ++ q2) ++ e ∧ a ≠ v ∧ onBoard a = true := by
    intro a ha
    obtain ⟨hadj, hnf, hne2⟩ := hprop a ha
    refine ⟨?_, ?_, findAdjacents_onBoard hadj⟩
    · intro hm
      rcases List.mem_append.mp hm with h | h
      · exact hnf h
      · exact hne2 (List.mem_append.mpr (Or.inl h))
    · intro hm
      exact hne2 (by rw [hm]; simp)
  have hdnew : ∀ a ∈ new, graphDist s a = k + 1 := by
    intro a ha
    obtain ⟨hadj, hnf, hne2⟩ := hprop a ha
    obtain ⟨hnot_old, hnav, hab⟩ := hfresh a ha
    have hub : graphDist s a ≤ k + 1 := by
      have := graphDist_le_succ (board_reachable63 hs hvb) hadj
      omega
    have hnot_lt : ¬ graphDist s a < k := by
      intro h
      exact (fun hm => hnot_old (List.mem_append.mpr (Or.inr hm))) (hl.lower a hab h)
    have hnot_eq : ¬ graphDist s a = k := by
      intro h
      rcases hl.atk a hab h with h' | h'
      · exact (fun hm => hnot_old (List.mem_append.mpr (Or.inr hm))) h'
      · rcases List.mem_cons.mp h' with h'' | h''
        · exact hnav h''
        · exact hnf (List.mem_append.mpr (Or.inl h''))
    omega
  have hnewkeys : ∀ a ∈ new, a ∉ keysP w ∧ a ≠ s := by
    intro a ha
    obtain ⟨hnot_old, _, _⟩ := hfresh a ha
    constructor
    · intro hm
      obtain ⟨hmem, _⟩ := (hc.keys_iff a).mp hm
      rw [hold] at hmem
      rcases List.mem_cons.mp hmem with h | h
      · exact (hfresh a ha).2.1 h
      · exact hnot_old h
    · intro hm
      have := hc.smem
      rw [hold] at this
      rcases List.mem_cons.mp this with h | h
      · exact (hfresh a ha).2.1 (hm.trans h)
      · exact hnot_old (hm ▸ h)
  -- The new state is a permutation of the old state plus the fresh block.
  have hperm : List.Perm ((q1' ++ (q2 ++ new)) ++ (e ++ [v]))
      ((v :: ((q1' ++ q2) ++ e)) ++ new) := by
    rw [List.perm_iff_count]
    intro a
    simp only [List.count_append, List.count_cons, List.count_nil]
    omega
  have hmm : ∀ x, x ∈ (q1' ++ (q2 ++ new)) ++ (e ++ [v]) ↔
      (x ∈ v :: ((q1' ++ q2) ++ e) ∨ x ∈ new) := by
    intro x
    constructor
    · intro hx
      have := hperm.subset hx
      rcases List.mem_append.mp this with h | h
      · exact Or.inl h
      · exact Or.inr h
    · intro hx
      apply hperm.symm.subset
      rcases hx with h | h
      · exact List.mem_append.mpr (Or.inl h)
      · exact List.mem_append.mpr (Or.inr h)
  have hvsrc : v = s ∨ v ∈ keysP w := by
    by_cases hvs : v = s
    · exact Or.inl hvs
    · refine Or.inr ((hc.keys_iff v).mpr ⟨?_, hvs⟩)
      rw [hold]
      exact List.mem_cons.mpr (Or.inl rfl)
  refine ⟨new, ?_, ?_, ?_⟩
  · intro w0
    rw [heqn (w ++ w0)]
    simp [List.append_assoc]
  · -- the Core invariant for the new state
    refine ⟨?_, ?_, ?_, ?_, ?_, ?_, ?_, ?_⟩
    · -- nodup
      apply (hperm.nodup_iff).mpr
      rw [List.nodup_append]
      refine ⟨by rw [← hold]; exact hc.nodup, hnd, ?_⟩
      intro a ha hanew
      obtain ⟨hnot_old, hnav, _⟩ := hfresh a hanew
      rcases List.mem_cons.mp ha with h | h
      · exact hnav h
      · exact hnot_old h
    · intro x hx
      rcases (hmm x).mp hx with h | h
      · rcases List.mem_cons.mp h with h' | h'
        · exact hoard x (Or.inr h')
        · exact hoard x (Or.inl h')
      · exact (hfresh x h).2.2
    · rw [hmm s]
      have := hc.smem
      rw [hold] at this
      exact Or.inl this
    · intro x
      rw [mem_keysP_block_rev, hmm x]
      constructor
      · rintro (h | h)
        · obtain ⟨_, hnav, _⟩ := hfresh x h
          exact ⟨Or.inr h, (hnewkeys x h).2⟩
        · obtain ⟨hmem, hxs⟩ := (hc.keys_iff x).mp h
          rw [hold] at hmem
          exact ⟨Or.inl hmem, hxs⟩
      · rintro ⟨h | h, hxs⟩
        · right
          apply (hc.keys_iff x).mpr
          rw [hold]
          exact ⟨h, hxs⟩
        · exact Or.inl h
    · exact WFP_block_rev hc.wf hvsrc new hnd hnewkeys
    · intro pr hpr
      rcases List.mem_append.mp hpr with h | h
      · rw [List.mem_reverse] at h
        obtain ⟨a, ha, heq⟩ := List.mem_map.mp h
        rw [← heq]
        exact (hprop a ha).1
      · exact hc.adjw pr h
    · intro hm
      rcases List.mem_append.mp hm with h | h
      · exact hc.gnot h
      · have : g = v := by simpa using h
        exact hvg this.symm
    · intro y hy b hb
      rw [hmm b]
      rcases List.mem_append.mp hy with hye | hyv
      · have := hc.closed y hye b hb
        rw [hold] at this
        exact Or.inl this
      · have hyv' : y = v := by simpa using hyv
        rcases hcov b (hyv' ▸ hb) with h | h
        · rcases List.mem_append.mp h with h' | h'
          · exact Or.inl (List.mem_cons.mpr (Or.inr (List.mem_append.mpr (Or.inl h'))))
          · exact Or.inr h'
        · rcases List.mem_append.mp h with h' | h'
          · exact Or.inl (List.mem_cons.mpr (Or.inr (List.mem_append.mpr (Or.inr h'))))
          · have : b = v := by simpa using h'
            exact Or.inl (List.mem_cons.mpr (Or.inl this))
  · -- the Layer invariant for the new state
    refine ⟨?_, ?_, ?_, ?_, ?_, ?_⟩
    · exact fun x hx => hl.d1 x (by simp [hx])
    · intro x hx
      rcases List.mem_append.mp hx with h | h
      · exact hl.d2 x h
      · exact hdnew x h
    · intro x hx hd
      exact List.mem_append.mpr (Or.inl (hl.lower x hx hd))
    · intro x hx hd
      rcases hl.atk x hx hd with h | h
      · exact Or.inl (List.mem_append.mpr (Or.inl h))
      · rcases List.mem_cons.mp h with h' | h'
        · exact Or.inl (List.mem_append.mpr (Or.inr (by simp [h'])))
        · exact Or.inr h'
    · intro x hx
      rcases List.mem_append.mp hx with h | h
      · exact hl.ebound x h
      · have : x = v := by simpa using h
        rw [this, hdv]
    · intro pr hpr
      rcases List.mem_append.mp hpr with h | h
      · rw [List.mem_reverse] at h
        obtain ⟨a, ha, heq⟩ := List.mem_map.mp h
        rw [← heq]
        simp only
        rw [hdnew a ha, hdv]
      · exact hl.dw pr h

theorem bfsLoop_cons_eq (g s v : V) (rest e : List V) (prev : Prev) (f : Nat) :
    bfsLoop g s (f + 1) (v :: rest) e prev =
      if (v.1 == g.1 && v.2 == g.2) = true then
        (match reconstructPathRun prev v s with
         | none => none
         | some p => some (some p))
      else
        bfsLoop g s f
          (processAdjacents v (findAdjacents v) rest (e ++ [v]) prev).1 (e ++ [v])
          (processAdjacents v (findAdjacents v) rest (e ++ [v]) prev).2 := rfl

/-- Full analysis of a BFS run: from any invariant state, the loop returns
a fixed shortest path to the goal — the same one for every sufficient fuel
and for every pre-run content of the `previous` fields. -/
theorem bfsLoop_run {s g : V} (hs : onBoard s = true) (hg : onBoard g = true) :
    ∀ (n : Nat) (q1 q2 e : List V) (w : Prev) (k : Nat),
      Core s g (q1 ++ q2) e w → Layer s q1 q2 e w k →
      (q1 = [] → q2 = []) →
      64 - e.length ≤ n →
      ∃ p : List V,
        validPath s g p ∧ onBoardPath p ∧ p.length = graphDist s g + 1 ∧
        ∀ (fuel : Nat) (w0 : Prev), 64 - e.length ≤ fuel →
          bfsLoop g s fuel (q1 ++ q2) e (w ++ w0) = some (some p) := by
  intro n
  induction n with
  | zero =>
    intro q1 q2 e w k hc hl hnorm hbud
    exfalso
    have hnde : e.Nodup := (List.nodup_append.mp hc.nodup).2.1
    have hbe : ∀ x ∈ e, onBoard x = true :=
      fun x hx => hc.board x (List.mem_append.mpr (Or.inr hx))
    have := explored_le_63 hnde hbe hg hc.gnot
    omega
  | succ n ih =>
    intro q1 q2 e w k hc hl hnorm hbud
    have hnde : e.Nodup := (List.nodup_append.mp hc.nodup).2.1
    have hbe : ∀ x ∈ e, onBoard x = true :=
      fun x hx => hc.board x (List.mem_append.mpr (Or.inr hx))
    have he63 : e.length ≤ 63 := explored_le_63 hnde hbe hg hc.gnot
    rcases q1 with _ | ⟨v, q1'⟩
    · -- normalization: the whole queue is empty, which is impossible
      exfalso
      have hq2 : q2 = [] := hnorm rfl
      subst hq2
      have hall : ∀ (m : Nat) (x : V), onBoard x = true → graphDist s x = m → x ∈ e := by
        intro m
        induction m with
        | zero =>
          intro x hx hd
          have hx0 : x ∈ reachSet s 0 := by
            have := graphDist_mem (board_reachable63 hs hx)
            rwa [hd] at this
          have hxs : x = s := (reachSet_zero s x).mp hx0
          have := hc.smem
          simp only [List.nil_append, List.append_nil] at this
          rwa [hxs]
        | succ m ihm =>
          intro x hx hd
          obtain ⟨y, hyb, hyd, hyadj⟩ := graphDist_pred hs (board_reachable63 hs hx) hd
          have hye : y ∈ e := ihm y hyb hyd
          have := hc.closed y hye x hyadj
          simpa using this
      exact hc.gnot (hall (graphDist s g) g hg rfl)
    · by_cases hvg : v = g
      · -- the goal is dequeued: reconstruct the path
        have hvsrc : v = s ∨ v ∈ keysP w := by
          by_cases hvs : v = s
          · exact Or.inl hvs
          · exact Or.inr ((hc.keys_iff v).mpr ⟨by simp, hvs⟩)
        obtain ⟨p, heval, hhead, hlast, hmemp, hchain⟩ :=
          reconstruct_general w hc.wf v hvsrc
        have hkeysq : ∀ z, z ∈ keysP w → z ∈ ((v :: q1') ++ q2) ++ e :=
          fun z hz => ((hc.keys_iff z).mp hz).1
        have hwlen : w.length ≤ 64 := by
          have h1 : (keysP w).length = w.length := by simp [keysP]
          have h2 : (keysP w).Nodup := WFP_keys_nodup hc.wf
          have h3 : ∀ z ∈ keysP w, onBoard z = true :=
            fun z hz => hc.board z (hkeysq z hz)
          have := board_list_le h2 h3
          omega
        have hoboard : onBoardPath p := by
          intro z hz
          rcases hmemp z hz with h | h
          · rw [h]; exact hs
          · exact hc.board z (hkeysq z h)
        have hvalid : validPath s g p := by
          refine ⟨hhead, by rw [hlast, hvg], ?_⟩
          apply hchain.imp
          intro uu vv hm
          exact ((mem_findAdjacents uu).mp (hc.adjw (vv, uu) hm)).1
        have hlen : p.length = graphDist s g + 1 := by
          rcases p with _ | ⟨a, t⟩
          · simp at hhead
          · have has : a = s := by simpa using hhead
            have := chain_write_dist hl.dw t a hchain v hlast
            rw [has, graphDist_self] at this
            have hdv : graphDist s v = k := hl.d1 v (by simp)
            rw [← hvg]
            simp only [List.length_cons]
            omega
        refine ⟨p, hvalid, hoboard, hlen, ?_⟩
        intro fuel w0 hfuel
        obtain ⟨f, rfl⟩ : ∃ f, fuel = f + 1 := ⟨fuel - 1, by omega⟩
        rw [List.cons_append, bfsLoop_cons_eq,
          if_pos ((pair_beq_iff v g).mpr hvg)]
        have hagree : ∀ z, z ∈ keysP w → lookupPrev (w ++ w0) z = lookupPrev w z :=
          fun z hz => lookupPrev_append_left w0 hz
        rw [reconstructPathRun, heval (w ++ w0) hagree 100 [] (by omega)]
        simp
      · -- an ordinary iteration
        obtain ⟨new, heqn, hc', hl'⟩ := bfs_step hs hc hl hvg
        have hbud' : 64 - (e ++ [v]).length ≤ n := by
          simp only [List.length_append, List.length_cons, List.length_nil]
          omega
        rcases q1' with _ | ⟨y, q1''⟩
        · -- the current layer is exhausted: shift before recursing
          have hcq : Core s g (q2 ++ new) (e ++ [v])
              ((new.map (fun a => (a, v))).reverse ++ w) := by simpa using hc'
          have hlq : Layer s [] (q2 ++ new) (e ++ [v])
              ((new.map (fun a => (a, v))).reverse ++ w) k := by
            refine ⟨by simp, hl'.d2, hl'.lower, ?_, hl'.ebound, hl'.dw⟩
            intro x hx hd
            rcases hl'.atk x hx hd with h | h
            · exact Or.inl h
            · simp at h
          have hl'' := Layer_shift hs hcq hlq
          have hcq2 : Core s g ((q2 ++ new) ++ []) (e ++ [v])
              ((new.map (fun a => (a, v))).reverse ++ w) := by simpa using hcq
          obtain ⟨p, hvp, hob, hlen, hrun⟩ :=
            ih (q2 ++ new) [] (e ++ [v]) ((new.map (fun a => (a, v))).reverse ++ w)
              (k + 1) hcq2 hl'' (fun _ => rfl) hbud'
          refine ⟨p, hvp, hob, hlen, ?_⟩
          intro fuel w0 hfuel
          obtain ⟨f, rfl⟩ : ∃ f, fuel = f + 1 := ⟨fuel - 1, by omega⟩
          rw [List.cons_append, bfsLoop_cons_eq, if_neg]
          · rw [heqn w0]
            have := hrun f w0 (by
              simp only [List.length_append, List.length_cons, List.length_nil]
              omega)
            simp only [List.append_nil] at this
            simpa using this
          · intro h
            exact hvg ((pair_beq_iff v g).mp h)
        · -- the layer continues
          obtain ⟨p, hvp, hob, hlen, hrun⟩ :=
            ih (y :: q1'') (q2 ++ new) (e ++ [v])
              ((new.map (fun a => (a, v))).reverse ++ w) k hc' hl'
              (fun h => by simp at h) hbud'
          refine ⟨p, hvp, hob, hlen, ?_⟩
          intro fuel w0 hfuel
          obtain ⟨f, rfl⟩ : ∃ f, fuel = f + 1 := ⟨fuel - 1, by omega⟩
          rw [List.cons_append, bfsLoop_cons_eq, if_neg]
          · rw [heqn w0]
            exact hrun f w0 (by
              simp only [List.length_append, List.length_cons, List.length_nil]
              omega)
          · intro h
            exact hvg ((pair_beq_iff v g).mp h)

theorem Layer_init {s : V} (hs : onBoard s = true) :
    Layer s [s] [] ([] : List V) ([] : Prev) 0 := by
  refine ⟨?_, by simp, by omega, ?_, by simp, by simp⟩
  · intro x hx
    have : x = s := by simpa using hx
    rw [this, graphDist_self]
  · intro x hx hd
    right
    have hx0 : x ∈ reachSet s 0 := by
      have := graphDist_mem (board_reachable63 hs hx)
      rwa [hd] at this
    simp [(reachSet_zero s x).mp hx0]

/-- The two entry points of `knightMovesBFS` analysed at once: the returned
path is a shortest knight path, identical for every prior content of the
`previous` fields, and already produced with fuel 64 (at most 64 loop
iterations). -/
theorem knightMovesBFS_spec {s g : V} (hs : onBoard s = true) (hg : onBoard g = true) :
    ∃ p, validPath s g p ∧ onBoardPath p ∧ p.length = graphDist s g + 1 ∧
      (∀ w0 : Prev, knightMovesBFS s g w0 = some (some p)) ∧
      (∀ w0 : Prev, bfsLoop g s 64 [s] [] w0 = some (some p)) := by
  obtain ⟨p, h1, h2, h3, hrun⟩ :=
    bfsLoop_run hs hg 64 [s] [] [] [] 0
      (by simpa using Core_init hs (by simp)) (Layer_init hs) (fun _ => rfl) (by simp)
  refine ⟨p, h1, h2, h3, ?_, ?_⟩
  · intro w0
    have := hrun 1000 w0 (by simp)
    simpa [knightMovesBFS] using this
  · intro w0
    have := hrun 64 w0 (by simp)
    simpa using this

/-! ### The DFS run analysis (validity and termination; no optimality) -/

theorem dfsLoop_cons_eq (g s v : V) (rest e : List V) (prev : Prev) (f : Nat) :
    dfsLoop g s (f + 1) (v :: rest) e prev =
      if (v.1 == g.1 && v.2 == g.2) = true then
        (match reconstructPathRun prev v s with
         | none => none
         | some p => some (some p))
      else
        dfsLoop g s f
          (processAdjacentsStack v (findAdjacents v) rest (e ++ [v]) prev).1 (e ++ [v])
          (processAdjacentsStack v (findAdjacents v) rest (e ++ [v]) prev).2 := rfl

/-- One non-goal iteration of the DFS loop preserves the core invariant. -/
theorem dfs_step {s g v : V} {rest e : List V} {w : Prev}
    (hc : Core s g (v :: rest) e w)
    (hvg : v ≠ g) :
    ∃ new : List V,
      (∀ w0 : Prev, processAdjacentsStack v (findAdjacents v) rest (e ++ [v]) (w ++ w0)
        = (new ++ rest, ((new.map (fun a => (a, v)) ++ w) ++ w0))) ∧
      Core s g (new ++ rest) (e ++ [v]) (new.map (fun a => (a, v)) ++ w) := by
  obtain ⟨new, heqn, hnd, hprop, hcov⟩ :=
    processAdjacentsStack_spec v (findAdjacents v) rest (e ++ [v])
  have hold : (v :: rest) ++ e = v :: (rest ++ e) := by simp
  have hnod := hc.nodup
  rw [hold, List.nodup_cons] at hnod
  obtain ⟨hvnot, hnod'⟩ := hnod
  have hve : v ∉ e := fun h => hvnot (List.mem_append.mpr (Or.inr h))
  have hoard : ∀ x, x ∈ rest ++ e ∨ x = v → onBoard x = true := by
    intro x hx
    apply hc.board
    rw [hold]
    rcases hx with h | h
    · exact List.mem_cons.mpr (Or.inr h)
    · exact List.mem_cons.mpr (Or.inl h)
  have hvb : onBoard v = true := hoard v (Or.inr rfl)
  have hfresh : ∀ a ∈ new, a ∉ rest ++ e ∧ a ≠ v ∧ onBoard a = true := by
    intro a ha
    obtain ⟨hadj, hnf, hne2⟩ := hprop a ha
    refine ⟨?_, ?_, findAdjacents_onBoard hadj⟩
    · intro hm
      rcases List.mem_append.mp hm with h | h
      · exact hnf h
      · exact hne2 (List.mem_append.mpr (Or.inl h))
    · intro hm
      exact hne2 (by rw [hm]; simp)
  have hnewkeys : ∀ a ∈ new, a ∉ keysP w ∧ a ≠ s := by
    intro a ha
    obtain ⟨hnot_old, hnav, _⟩ := hfresh a ha
    constructor
    · intro hm
      obtain ⟨hmem, _⟩ := (hc.keys_iff a).mp hm
      rw [hold] at hmem
      rcases List.mem_cons.mp hmem with h | h
      · exact hnav h
      · exact hnot_old h
    · intro hm
      have := hc.smem
      rw [hold] at this
      rcases List.mem_cons.mp this with h | h
      · exact hnav (hm.trans h)
      · exact hnot_old (hm ▸ h)
  have hperm : List.Perm ((new ++ rest) ++ (e ++ [v]))
      ((v :: (rest ++ e)) ++ new) := by
    rw [List.perm_iff_count]
    intro a
    simp only [List.count_append, List.count_cons, List.count_nil]
    omega
  have hmm : ∀ x, x ∈ (new ++ rest) ++ (e ++ [v]) ↔
      (x ∈ v :: (rest ++ e) ∨ x ∈ new) := by
    intro x
    constructor
    · intro hx
      have := hperm.subset hx
      rcases List.mem_append.mp this with h | h
      · exact Or.inl h
      · exact Or.inr h
    · intro hx
      apply hperm.symm.subset
      rcases hx with h | h
      · exact List.mem_append.mpr (Or.inl h)
      · exact List.mem_append.mpr (Or.inr h)
  have hvsrc : v = s ∨ v ∈ keysP w := by
    by_cases hvs : v = s
    · exact Or.inl hvs
    · exact Or.inr ((hc.keys_iff v).mpr ⟨by rw [hold]; simp, hvs⟩)
  refine ⟨new, ?_, ?_⟩
  · intro w0
    rw [heqn (w ++ w0)]
    simp [List.append_assoc]
  · refine ⟨?_, ?_, ?_, ?_, ?_, ?_, ?_, ?_⟩
    · apply (hperm.nodup_iff).mpr
      rw [List.nodup_append]
      refine ⟨by rw [← hold]; exact hc.nodup, hnd, ?_⟩
      intro a ha hanew
      obtain ⟨hnot_old, hnav, _⟩ := hfresh a hanew
      rcases List.mem_cons.mp ha with h | h
      · exact hnav h
      · exact hnot_old h
    · intro x hx
      rcases (hmm x).mp hx with h | h
      · rcases List.mem_cons.mp h with h' | h'
        · exact hoard x (Or.inr h')
        · exact hoard x (Or.inl h')
      · exact (hfresh x h).2.2
    · rw [hmm s]
      have := hc.smem
      rw [hold] at this
      exact Or.inl this
    · intro x
      rw [mem_keysP_block, hmm x]
      constructor
      · rintro (h | h)
        · exact ⟨Or.inr h, (hnewkeys x h).2⟩
        · obtain ⟨hmem, hxs⟩ := (hc.keys_iff x).mp h
          rw [hold] at hmem
          exact ⟨Or.inl hmem, hxs⟩
      · rintro ⟨h | h, hxs⟩
        · right
          apply (hc.keys_iff x).mpr
          rw [hold]
          exact ⟨h, hxs⟩
        · exact Or.inl h
    · exact WFP_block hc.wf hvsrc new hnd hnewkeys
    · intro pr hpr
      rcases List.mem_append.mp hpr with h | h
      · obtain ⟨a, ha, heq⟩ := List.mem_map.mp h
        rw [← heq]
        exact (hprop a ha).1
      · exact hc.adjw pr h
    · intro hm
      rcases List.mem_append.mp hm with h | h
      · exact hc.gnot h
      · have : g = v := by simpa using h
        exact hvg this.symm
    · intro y hy b hb
      rw [hmm b]
      rcases List.mem_append.mp hy with hye | hyv
      · have := hc.closed y hye b hb
        rw [hold] at this
        exact Or.inl this
      · have hyv' : y = v := by simpa using hyv
        rcases hcov b (hyv' ▸ hb) with h | h
        · rcases List.mem_append.mp h with h' | h'
          · exact Or.inr h'
          · exact Or.inl (List.mem_cons.mpr (Or.inr (List.mem_append.mpr (Or.inl h'))))
        · rcases List.mem_append.mp h with h' | h'
          · exact Or.inl (List.mem_cons.mpr (Or.inr (List.mem_append.mpr (Or.inr h'))))
          · have : b = v := by simpa using h'
            exact Or.inl (List.mem_cons.mpr (Or.inl this))

/-- Full analysis of a DFS run: from any invariant state, the loop finds
the goal and returns a fixed valid knight path — the same for every
sufficient fuel and every pre-run content of the `previous` fields. -/
theorem dfsLoop_run {s g : V} (hs : onBoard s = true) (hg : onBoard g = true) :
    ∀ (n : Nat) (q e : List V) (w : Prev),
      Core s g q e w →
      64 - e.length ≤ n →
      ∃ p : List V,
        validPath s g p ∧ onBoardPath p ∧
        ∀ (fuel : Nat) (w0 : Prev), 64 - e.length ≤ fuel →
          dfsLoop g s fuel q e (w ++ w0) = some (some p) := by
  intro n
  induction n with
  | zero =>
    intro q e w hc hbud
    exfalso
    have hnde : e.Nodup := (List.nodup_append.mp hc.nodup).2.1
    have hbe : ∀ x ∈ e, onBoard x = true :=
      fun x hx => hc.board x (List.mem_append.mpr (Or.inr hx))
    have := explored_le_63 hnde hbe hg hc.gnot
    omega
  | succ n ih =>
    intro q e w hc hbud
    have hnde : e.Nodup := (List.nodup_append.mp hc.nodup).2.1
    have hbe : ∀ x ∈ e, onBoard x = true :=
      fun x hx => hc.board x (List.mem_append.mpr (Or.inr hx))
    have he63 : e.length ≤ 63 := explored_le_63 hnde hbe hg hc.gnot
    rcases q with _ | ⟨v, rest⟩
    · exfalso
      have hall : ∀ (m : Nat) (x : V), onBoard x = true → graphDist s x = m → x ∈ e := by
        intro m
        induction m with
        | zero =>
          intro x hx hd
          have hx0 : x ∈ reachSet s 0 := by
            have := graphDist_mem (board_reachable63 hs hx)
            rwa [hd] at this
          have hxs : x = s := (reachSet_zero s x).mp hx0
          have := hc.smem
          simp only [List.nil_append] at this
          rwa [hxs]
        | succ m ihm =>
          intro x hx hd
          obtain ⟨y, hyb, hyd, hyadj⟩ := graphDist_pred hs (board_reachable63 hs hx) hd
          have hye : y ∈ e := ihm y hyb hyd
          have := hc.closed y hye x hyadj
          simpa using this
      exact hc.gnot (hall (graphDist s g) g hg rfl)
    · by_cases hvg : v = g
      · have hvsrc : v = s ∨ v ∈ keysP w := by
          by_cases hvs : v = s
          · exact Or.inl hvs
          · exact Or.inr ((hc.keys_iff v).mpr ⟨by simp, hvs⟩)
        obtain ⟨p, heval, hhead, hlast, hmemp, hchain⟩ :=
          reconstruct_general w hc.wf v hvsrc
        have hkeysq : ∀ z, z ∈ keysP w → z ∈ (v :: rest) ++ e :=
          fun z hz => ((hc.keys_iff z).mp hz).1
        have hwlen : w.length ≤ 64 := by
          have h1 : (keysP w).length = w.length := by simp [keysP]
          have h2 : (keysP w).Nodup := WFP_keys_nodup hc.wf
          have h3 : ∀ z ∈ keysP w, onBoard z = true :=
            fun z hz => hc.board z (hkeysq z hz)
          have := board_list_le h2 h3
          omega
        have hoboard : onBoardPath p := by
          intro z hz
          rcases hmemp z hz with h | h
          · rw [h]; exact hs
          · exact hc.board z (hkeysq z h)
        have hvalid : validPath s g p := by
          refine ⟨hhead, by rw [hlast, hvg], ?_⟩
          apply hchain.imp
          intro uu vv hm
          exact ((mem_findAdjacents uu).mp (hc.adjw (vv, uu) hm)).1
        refine ⟨p, hvalid, hoboard, ?_⟩
        intro fuel w0 hfuel
        obtain ⟨f, rfl⟩ : ∃ f, fuel = f + 1 := ⟨fuel - 1, by omega⟩
        rw [dfsLoop_cons_eq, if_pos ((pair_beq_iff v g).mpr hvg)]
        have hagree : ∀ z, z ∈ keysP w → lookupPrev (w ++ w0) z = lookupPrev w z :=
          fun z hz => lookupPrev_append_left w0 hz
        rw [reconstructPathRun, heval (w ++ w0) hagree 100 [] (by omega)]
        simp
      · obtain ⟨new, heqn, hc'⟩ := dfs_step hc hvg
        have hbud' : 64 - (e ++ [v]).length ≤ n := by
          simp only [List.length_append, List.length_cons, List.length_nil]
          omega
        obtain ⟨p, hvp, hob, hrun⟩ :=
          ih (new ++ rest) (e ++ [v]) (new.map (fun a => (a, v)) ++ w) hc' hbud'
        refine ⟨p, hvp, hob, ?_⟩
        intro fuel w0 hfuel
        obtain ⟨f, rfl⟩ : ∃ f, fuel = f + 1 := ⟨fuel - 1, by omega⟩
        rw [dfsLoop_cons_eq, if_neg]
        · rw [heqn w0]
          exact hrun f w0 (by
            simp only [List.length_append, List.length_cons, List.length_nil]
            omega)
        · intro h
          exact hvg ((pair_beq_iff v g).mp h)

/-- The entry point of `knightMovesDFS` analysed: the returned path is a
valid knight path from start to goal, identical for every prior content of
the `previous` fields, and already produced with fuel 64. -/
theorem knightMovesDFS_spec {s g : V} (hs : onBoard s = true) (hg : onBoard g = true) :
    ∃ p, validPath s g p ∧ onBoardPath p ∧
      (∀ w0 : Prev, knightMovesDFS s g w0 = some (some p)) ∧
      (∀ w0 : Prev, dfsLoop g s 64 [s] [] w0 = some (some p)) := by
  obtain ⟨p, h1, h2, hrun⟩ :=
    dfsLoop_run hs hg 64 [s] [] [] (Core_init hs (by simp)) (by simp)
  refine ⟨p, h1, h2, ?_, ?_⟩
  · intro w0
    have := hrun 1000 w0 (by simp)
    simpa [knightMovesDFS] using this
  · intro w0
    have := hrun 64 w0 (by simp)
    simpa using this

/-! ### Remaining auxiliary facts -/

/-- Any valid knight path on the board is at least as long as the graph
distance requires. -/
theorem validPath_min {s g : V} {q : List V} (hv : validPath s g q)
    (hb : onBoardPath q) : graphDist s g + 1 ≤ q.length := by
  have h := validPath_reach hv hb
  have hle := graphDist_le h
  have hq : q ≠ [] := by
    obtain ⟨h1, _, _⟩ := hv
    intro he
    rw [he] at h1
    simp at h1
  have hpos : 1 ≤ q.length := List.length_pos.mpr hq
  omega

/-- The knight-move graph distance is symmetric on the board. -/
theorem graphDist_symm {s g : V} (hs : onBoard s = true) (hg : onBoard g = true) :
    graphDist s g = graphDist g s := by
  have hdir : ∀ a b : V, onBoard a = true → onBoard b = true →
      graphDist b a ≤ graphDist a b := by
    intro a b ha hb
    obtain ⟨p, hv, hob, hlen⟩ :=
      reach_to_path ha (graphDist a b) b (graphDist_mem (board_reachable63 ha hb))
    have hrev := validPath_reverse hv
    have hbrev : onBoardPath p.reverse := by
      intro x hx
      exact hob x (List.mem_reverse.mp hx)
    have := validPath_min hrev hbrev
    rw [List.length_reverse] at this
    omega
  exact Nat.le_antisymm (hdir g s hg hs) (hdir s g hs hg)

/-- `search(X, X)`: the very first iteration dequeues `X`, matches the
goal, and the reconstruction immediately returns `[X]` — whatever the
`previous` fields hold. -/
theorem reconstructPathRun_self (prev : Prev) (X : V) :
    reconstructPathRun prev X X = some [X] := by
  rw [reconstructPathRun]
  show reconstructPath prev (99 + 1) X X [] = some [X]
  rw [reconstructPath, if_pos (by simp)]
  simp

theorem knightMovesBFS_self (X : V) (prev : Prev) :
    knightMovesBFS X X prev = some (some [X]) := by
  rw [knightMovesBFS]
  show bfsLoop X X (999 + 1) (X :: []) [] prev = some (some [X])
  rw [bfsLoop_cons_eq, if_pos (by simp), reconstructPathRun_self]

theorem knightMovesDFS_self (X : V) (prev : Prev) :
    knightMovesDFS X X prev = some (some [X]) := by
  rw [knightMovesDFS]
  show dfsLoop X X (999 + 1) (X :: []) [] prev = some (some [X])
  rw [dfsLoop_cons_eq, if_pos (by simp), reconstructPathRun_self]

/-- Degree facts for every square, checked square by square. -/
theorem findAdjacents_degrees :
    ∀ u ∈ allSquares,
      2 ≤ (findAdjacents u).length ∧ (findAdjacents u).length ≤ 8 ∧
      (2 ≤ u.1 → u.1 ≤ 5 → 2 ≤ u.2 → u.2 ≤ 5 → (findAdjacents u).length = 8) := by
  decide

/-! ### The claims -/

/-- Claim C1: for every pair of board squares, the path returned by
`knightMovesBFS` has edge count equal to the graph distance between start
and goal in the knight-move graph, and no strictly shorter valid knight
path exists. -/
theorem C1_bfs_shortest (s g : V) (hs : onBoard s = true) (hg : onBoard g = true) :
    ∃ p : List V, knightMovesBFS s g [] = some (some p) ∧
      p.length - 1 = graphDist s g ∧
      ∀ q : List V, validPath s g q → onBoardPath q → p.length ≤ q.length := by
  obtain ⟨p, _, _, hlen, hrun, _⟩ := knightMovesBFS_spec hs hg
  refine ⟨p, hrun [], by omega, ?_⟩
  intro q hq hqb
  have := validPath_min hq hqb
  omega

theorem C1_witness :
    onBoard ((0 : Int), (0 : Int)) = true ∧ onBoard ((1 : Int), (2 : Int)) = true ∧
    (∃ p : List V, knightMovesBFS (0, 0) (1, 2) [] = some (some p) ∧
      p.length - 1 = graphDist (0, 0) (1, 2) ∧
      ∀ q : List V, validPath (0, 0) (1, 2) q → onBoardPath q → p.length ≤ q.length) :=
  ⟨by decide, by decide, C1_bfs_shortest (0, 0) (1, 2) (by decide) (by decide)⟩

/-- Claim C2: every path returned by `knightMovesBFS` or `knightMovesDFS`
for board squares starts at the start square's coordinates, ends at the
goal square's coordinates, and each consecutive pair differs by a legal
knight-move offset. -/
theorem C2_returned_paths_valid (s g : V) (hs : onBoard s = true)
    (hg : onBoard g = true) (p : List V)
    (hrun : knightMovesBFS s g [] = some (some p) ∨
            knightMovesDFS s g [] = some (some p)) :
    p.head? = some s ∧ p.getLast? = some g ∧ knightChain p := by
  rcases hrun with h | h
  · obtain ⟨p', hv, _, _, hr, _⟩ := knightMovesBFS_spec hs hg
    rw [hr []] at h
    have hpp : p' = p := by simpa using h
    rw [← hpp]
    exact hv
  · obtain ⟨p', hv, _, hr, _⟩ := knightMovesDFS_spec hs hg
    rw [hr []] at h
    have hpp : p' = p := by simpa using h
    rw [← hpp]
    exact hv

theorem C2_witness :
    onBoard ((0 : Int), (0 : Int)) = true ∧
    (knightMovesBFS ((0 : Int), (0 : Int)) (0, 0) [] = some (some [(0, 0)]) ∨
     knightMovesDFS ((0 : Int), (0 : Int)) (0, 0) [] = some (some [(0, 0)])) ∧
    (([((0 : Int), (0 : Int))] : List V).head? = some (0, 0) ∧
     ([((0 : Int), (0 : Int))] : List V).getLast? = some (0, 0) ∧
     knightChain [((0 : Int), (0 : Int))]) :=
  ⟨by decide, Or.inl (by decide),
    C2_returned_paths_valid (0, 0) (0, 0) (by decide) (by decide) [(0, 0)]
      (Or.inl (by decide))⟩

/-- Claim C3: for every board square `X`, both searches on the trivial
instance return the single-element path `[[X.row, X.column]]`. -/
theorem C3_trivial_search (X : V) (hX : onBoard X = true) :
    knightMovesBFS X X [] = some (some [X]) ∧
    knightMovesDFS X X [] = some (some [X]) :=
  ⟨knightMovesBFS_self X [], knightMovesDFS_self X []⟩

theorem C3_witness :
    onBoard ((4 : Int), (4 : Int)) = true ∧
    (knightMovesBFS ((4 : Int), (4 : Int)) (4, 4) [] = some (some [(4, 4)]) ∧
     knightMovesDFS ((4 : Int), (4 : Int)) (4, 4) [] = some (some [(4, 4)])) :=
  ⟨by decide, C3_trivial_search (4, 4) (by decide)⟩

/-- Claim C4 as stated is false: for start `(0,0)` and goal `(3,3)` the
BFS path has 2 moves, not 4 — `(0,0) → (1,2) → (3,3)` are two legal
knight moves. -/
theorem C4_counterexample :
    knightMovesBFS (0, 0) (3, 3) [] = some (some [(0, 0), (1, 2), (3, 3)]) ∧
    ¬ (([((0 : Int), (0 : Int)), (1, 2), (3, 3)] : List V).length - 1 = 4) := by
  constructor
  · decide
  · decide

/-- Claim C4, amended: on the 8×8 board with start `(0,0)` and goal
`(3,3)`, `knightMovesBFS` returns a path with 2 moves, which is the graph
distance between those squares. -/
theorem C4_amended :
    ∃ p : List V, knightMovesBFS (0, 0) (3, 3) [] = some (some p) ∧
      p.length - 1 = 2 ∧ graphDist (0, 0) (3, 3) = 2 :=
  ⟨[(0, 0), (1, 2), (3, 3)], by decide, by decide, by decide⟩

/-- Claim C5: after graph construction, the adjacency relation stored in
the `edges` lists is symmetric and irreflexive on board squares. -/
theorem C5_symmetric_irreflexive (a b : V) (ha : onBoard a = true)
    (hb : onBoard b = true) :
    (a ∈ edgesOf b ↔ b ∈ edgesOf a) ∧ a ∉ edgesOf a :=
  ⟨edgesOf_symm b a, edgesOf_irrefl a⟩

theorem C5_witness :
    onBoard ((0 : Int), (0 : Int)) = true ∧ onBoard ((1 : Int), (2 : Int)) = true ∧
    ((((0 : Int), (0 : Int)) : V) ∈ edgesOf (1, 2) ↔ ((1 : Int), (2 : Int)) ∈ edgesOf (0, 0)) ∧
    (((0 : Int), (0 : Int)) : V) ∉ edgesOf (0, 0) :=
  ⟨by decide, by decide,
    (C5_symmetric_irreflexive (0, 0) (1, 2) (by decide) (by decide)).1,
    (C5_symmetric_irreflexive (0, 0) (1, 2) (by decide) (by decide)).2⟩

/-- Claim C6: after construction, every board square's edge list has
between 2 and 8 entries, the corner `(0,0)` has exactly 2, and squares
with both coordinates in `[2,5]` have exactly 8. -/
theorem C6_neighbor_counts (v : V) (hv : onBoard v = true) :
    (2 ≤ (edgesOf v).length ∧ (edgesOf v).length ≤ 8) ∧
    (edgesOf ((0 : Int), (0 : Int))).length = 2 ∧
    (2 ≤ v.1 → v.1 ≤ 5 → 2 ≤ v.2 → v.2 ≤ 5 → (edgesOf v).length = 8) := by
  have hv' := (mem_allSquares v).mpr hv
  obtain ⟨h1, h2, h3⟩ := findAdjacents_degrees v hv'
  have hlen := edgesOf_length hv
  refine ⟨⟨by omega, by omega⟩, ?_, fun a b c d => by rw [hlen]; exact h3 a b c d⟩
  rw [edgesOf_length (by decide)]
  decide

theorem C6_witness :
    onBoard ((3 : Int), (3 : Int)) = true ∧
    ((2 ≤ (edgesOf ((3 : Int), (3 : Int))).length ∧ (edgesOf ((3 : Int), (3 : Int))).length ≤ 8) ∧
     (edgesOf ((0 : Int), (0 : Int))).length = 2 ∧
     (2 ≤ (3 : Int) → (3 : Int) ≤ 5 → 2 ≤ (3 : Int) → (3 : Int) ≤ 5 →
       (edgesOf ((3 : Int), (3 : Int))).length = 8)) :=
  ⟨by decide, C6_neighbor_counts (3, 3) (by decide)⟩

/-- Claim C7 as stated is false: the searches perform no bounds
validation.  The off-board start `(-1,0)` is processed by the ordinary
search and `knightMovesBFS` returns a path (whose first square is off the
board) instead of failing with an OutOfBounds condition. -/
theorem C7_counterexample :
    onBoard ((-1 : Int), (0 : Int)) = false ∧
    knightMovesBFS (-1, 0) (0, 0) []
      = some (some [(-1, 0), (0, 2), (2, 1), (0, 0)]) := by
  constructor
  · decide
  · decide

/-- Claim C7, amended: neither search validates its inputs.  A supplied
coordinate outside `[0, boardSize)` is searched like any other vertex:
from the off-board start `(-1,0)` both `knightMovesBFS` and
`knightMovesDFS` return a normal path into the board (beginning at the
off-board coordinate) rather than failing with an explicit OutOfBounds
condition; no crash and no error value occurs. -/
theorem C7_amended :
    onBoard ((-1 : Int), (0 : Int)) = false ∧
    knightMovesBFS (-1, 0) (0, 0)
      [] = some (some [(-1, 0), (0, 2), (2, 1), (0, 0)]) ∧
    knightMovesDFS (-1, 0) (0, 0)
      [] = some (some [(-1, 0), (1, 1), (3, 0), (5, 1), (7, 0), (6, 2), (4, 1),
        (2, 0), (1, 2), (0, 0)]) := by
  refine ⟨by decide, by decide, by decide⟩

/-- Claim C8: for every pair of board squares, running BFS in either
direction yields paths of identical length (the graph distance is
symmetric), though not necessarily reversed coordinate sequences. -/
theorem C8_roundtrip_length (s g : V) (hs : onBoard s = true)
    (hg : onBoard g = true) :
    ∃ p q : List V, knightMovesBFS s g [] = some (some p) ∧
      knightMovesBFS g s [] = some (some q) ∧ p.length = q.length := by
  obtain ⟨p, _, _, hl1, hr1, _⟩ := knightMovesBFS_spec hs hg
  obtain ⟨q, _, _, hl2, hr2, _⟩ := knightMovesBFS_spec hg hs
  exact ⟨p, q, hr1 [], hr2 [], by rw [hl1, hl2, graphDist_symm hs hg]⟩

theorem C8_witness :
    onBoard ((0 : Int), (0 : Int)) = true ∧ onBoard ((3 : Int), (3 : Int)) = true ∧
    (∃ p q : List V, knightMovesBFS (0, 0) (3, 3) [] = some (some p) ∧
      knightMovesBFS (3, 3) (0, 0) [] = some (some q) ∧ p.length = q.length) :=
  ⟨by decide, by decide, C8_roundtrip_length (0, 0) (3, 3) (by decide) (by decide)⟩

/-- Claim C9: for every pair of board squares, both searches terminate
within 64 iterations of the frontier-removal loop: the loop run with fuel
64 (one fuel unit per removal) already returns, with the very result the
actual (fuel 1000) entry points produce. -/
theorem C9_terminates_within_64 (s g : V) (hs : onBoard s = true)
    (hg : onBoard g = true) :
    (∃ r : SearchResult, bfsLoop g s 64 [s] [] [] = some r ∧
      knightMovesBFS s g [] = some r) ∧
    (∃ r : SearchResult, dfsLoop g s 64 [s] [] [] = some r ∧
      knightMovesDFS s g [] = some r) := by
  obtain ⟨p, _, _, _, hr1, hr64⟩ := knightMovesBFS_spec hs hg
  obtain ⟨q, _, _, hr1d, hr64d⟩ := knightMovesDFS_spec hs hg
  exact ⟨⟨some p, hr64 [], hr1 []⟩, ⟨some q, hr64d [], hr1d []⟩⟩

theorem C9_witness :
    onBoard ((0 : Int), (0 : Int)) = true ∧ onBoard ((1 : Int), (2 : Int)) = true ∧
    ((∃ r : SearchResult, bfsLoop ((1 : Int), (2 : Int)) (0, 0) 64 [(0, 0)] [] [] = some r ∧
      knightMovesBFS (0, 0) (1, 2) [] = some r) ∧
     (∃ r : SearchResult, dfsLoop ((1 : Int), (2 : Int)) (0, 0) 64 [(0, 0)] [] [] = some r ∧
      knightMovesDFS (0, 0) (1, 2) [] = some r)) :=
  ⟨by decide, by decide, C9_terminates_within_64 (0, 0) (1, 2) (by decide) (by decide)⟩

/-- Claim C10: the result of a search on board squares does not depend on
the `previous` fields left behind by earlier searches on the same graph:
with any prior assignment log, the result equals the one on a fresh
graph (empty log). -/
theorem C10_prior_searches_irrelevant (s g : V) (prev : Prev)
    (hs : onBoard s = true) (hg : onBoard g = true) :
    knightMovesBFS s g prev = knightMovesBFS s g [] ∧
    knightMovesDFS s g prev = knightMovesDFS s g [] := by
  obtain ⟨p, _, _, _, hr, _⟩ := knightMovesBFS_spec hs hg
  obtain ⟨q, _, _, hrd, _⟩ := knightMovesDFS_spec hs hg
  rw [hr prev, hr [], hrd prev, hrd []]
  exact ⟨rfl, rfl⟩

theorem C10_witness :
    onBoard ((0 : Int), (0 : Int)) = true ∧ onBoard ((1 : Int), (2 : Int)) = true ∧
    (knightMovesBFS (0, 0) (1, 2) [((1, 2), (3, 3)), ((0, 1), (7, 7))]
        = knightMovesBFS (0, 0) (1, 2) [] ∧
     knightMovesDFS (0, 0) (1, 2) [((1, 2), (3, 3)), ((0, 1), (7, 7))]
        = knightMovesDFS (0, 0) (1, 2) []) :=
  ⟨by decide, by decide,
    C10_prior_searches_irrelevant (0, 0) (1, 2) [((1, 2), (3, 3)), ((0, 1), (7, 7))]
      (by decide) (by decide)⟩
